import Mathlib

/-!
The hideproc module: the concealment registry, the enumeration filter, the
command transport and the installation of the hook.

A shallow embedding of `main.c`.

* The global list `hidden_proc` is passed explicitly as a `Registry` (head of
  the kernel list first); every function that mutates the list returns the new
  list.  `kmalloc` is taken to succeed.
* `pid_t` values are integers; the one narrowing conversion, of the scanned
  `long` to `pid_t`, is `to_pid_t`.
* The host kernel is a parameter: the pid lookups of `hide_process` are the
  fields of `Host`, the task tree is the inductive `task_struct`, the original
  `find_ge_pid` is an argument of `hook_find_ge_pid`, `sscanf` is an argument of
  `device_write`, and the outcomes of the ftrace calls are the fields of
  `ftrace_calls`.
* `unhide_process`, `hook_find_ge_pid` and `device_write` loop until the data
  lets them stop, so they take a fuel argument and report when it runs out; the
  theorems say which fuel is enough.
* Texts are lists of byte values; `message` of `device_write` is the list of its
  `len + 1` bytes and a cursor past its end is reported as `out_of_bounds`.
-/

namespace HideProc

/-! ## Data model -/

/-- The only member of `enum RETURN_CODE`. -/
def SUCCESS : Int := 0

/-- The record `pid_node_t`; the embedded `list_node` is the position in the
registry list. -/
structure pid_node_t where
  id : Int
  parent : Int
deriving DecidableEq, Repr

/-- The list `hidden_proc`, first entry first. -/
abbrev Registry := List pid_node_t

/-- The fields of the kernel's `struct task_struct` that the module reads:
`tgid`, `real_parent` (kept as the `tgid` of the task it points to, the only
thing read through it; `none` is the null pointer) and the `children` list in
`sibling` order. -/
inductive task_struct where
  | mk (tgid : Int) (real_parent : Option Int) (children : List task_struct)

/-- Field `tgid`. -/
def task_struct.tgid : task_struct → Int
  | .mk tgid _ _ => tgid

/-- Field `real_parent`, as the parent's `tgid`. -/
def task_struct.real_parent : task_struct → Option Int
  | .mk _ rp _ => rp

/-- Field `children`. -/
def task_struct.children : task_struct → List task_struct
  | .mk _ _ cs => cs

/-- The kernel's `struct pid`, reduced to `numbers->nr`. -/
structure struct_pid where
  nr : Int
deriving DecidableEq, Repr

/-- The two kernel lookups `hide_process` calls: `find_get_pid(pid)` and
`pid_task(tmp, PIDTYPE_PID)`; `none` is the null pointer. -/
structure Host where
  find_get_pid : Int → Option struct_pid
  pid_task : struct_pid → Option task_struct

/-! ## Concealment registry -/

/-- Function `is_hidden_proc`: scan of the list for an entry whose `id` is `pid`. -/
def is_hidden_proc (hidden_proc : Registry) (pid : Int) : Bool :=
  match hidden_proc with
  | [] => false
  | proc :: rest => if proc.id = pid then true else is_hidden_proc rest pid

/-- The first loop of `travel_all_add_node`: the flag `new_node` starts at 1 and
is cleared at the first entry whose `id` is `origin->tgid`. -/
def new_node (hidden_proc : Registry) (tgid : Int) : Bool :=
  match hidden_proc with
  | [] => true
  | proc :: rest => if proc.id = tgid then false else new_node rest tgid

/-- The block `if(new_node){...}` of `travel_all_add_node`: a fresh record
`(tgid, parent)` is linked at the tail (`list_add_tail`) when the flag is set.
The allocation is taken to succeed. -/
def add_node (hidden_proc : Registry) (tgid parent : Int) : Registry :=
  if new_node hidden_proc tgid then hidden_proc ++ [⟨tgid, parent⟩] else hidden_proc

mutual
/-- Function `travel_all_add_node(origin, parent)`: append a record for `origin` when
none has its `tgid`, then visit the children, passing `origin->tgid` as their
`parent`.  The C function always returns `SUCCESS` and no caller reads it, so
only the registry is returned. -/
def travel_all_add_node (origin : task_struct) (parent : Int) (hidden_proc : Registry) :
    Registry :=
  match origin with
  | .mk tgid _ children => travel_children children tgid (add_node hidden_proc tgid parent)
/-- The loop `list_for_each_entry(task_tmp, &origin->children, sibling)` of
`travel_all_add_node`, where `tgid` is `origin->tgid`. -/
def travel_children (children : List task_struct) (tgid : Int) (hidden_proc : Registry) :
    Registry :=
  match children with
  | [] => hidden_proc
  | task_tmp :: rest => travel_children rest tgid (travel_all_add_node task_tmp tgid hidden_proc)
end

/-- Function `hide_process(pid)`: the returned integer and the new registry. -/
def hide_process (h : Host) (pid : Int) (hidden_proc : Registry) : Int × Registry :=
  match h.find_get_pid pid with
  | none => (0, hidden_proc)
  | some tmp =>
    match h.pid_task tmp with
    | some origin =>
      match origin.real_parent with
      | some ppid => (SUCCESS, travel_all_add_node origin ppid hidden_proc)
      | none => (SUCCESS, hidden_proc)
    | none => (SUCCESS, hidden_proc)

/-- The `list_for_each_entry_safe` loop of `unhide_process(pid)`.  The list is
`done ++ rest`, the cursor `proc` is the head of `rest`, and `done` holds the
entries the cursor has passed.  An entry whose `id` is `pid` is unlinked and the
cursor moves to the saved successor.  An entry whose `parent` is `pid` starts the
recursive call `unhide_process(proc->id)`, which scans the whole list from its
head, and afterwards `tmp_proc` is reset to the first entry, so this scan starts
again from the head of what is left.  `fuel` bounds the depth of the unfolding;
`none` means it ran out. -/
def unhide_loop : Nat → Int → Registry → Registry → Option Registry
  | 0, _, _, _ => none
  | _ + 1, _, done, [] => some done
  | fuel + 1, pid, done, proc :: rest =>
    if proc.id = pid then
      unhide_loop fuel pid done rest
    else if proc.parent = pid then
      match unhide_loop fuel proc.id [] (done ++ proc :: rest) with
      | none => none
      | some hidden_proc => unhide_loop fuel pid [] hidden_proc
    else
      unhide_loop fuel pid (done ++ [proc]) rest

/-- Function `unhide_process(pid)`: the loop from the head of the list, then
`return SUCCESS`. -/
def unhide_process (fuel : Nat) (pid : Int) (hidden_proc : Registry) : Option (Int × Registry) :=
  match unhide_loop fuel pid [] hidden_proc with
  | none => none
  | some hp => some (SUCCESS, hp)

/-! ## Enumeration filter -/

/-- The `while` loop of `hook_find_ge_pid`: `pid` is the current result of the
original primitive (`none` is the null pointer).  Pid numbers stay below the
kernel limit of 2^22, so `pid->numbers->nr + 1` is computed without wrap. -/
def hook_find_ge_pid_loop (real_find_ge_pid : Int → Option struct_pid) (hidden_proc : Registry) :
    Nat → Option struct_pid → Option (Option struct_pid)
  | 0, _ => none
  | _ + 1, none => some none
  | fuel + 1, some pid =>
    if is_hidden_proc hidden_proc pid.nr then
      hook_find_ge_pid_loop real_find_ge_pid hidden_proc fuel (real_find_ge_pid (pid.nr + 1))
    else some (some pid)

/-- Function `hook_find_ge_pid(nr, ns)` for a fixed namespace; the outer `none` means
that `fuel` iterations of the loop were not enough. -/
def hook_find_ge_pid (real_find_ge_pid : Int → Option struct_pid) (hidden_proc : Registry)
    (fuel : Nat) (nr : Int) : Option (Option struct_pid) :=
  hook_find_ge_pid_loop real_find_ge_pid hidden_proc fuel (real_find_ge_pid nr)

/-! ## The add request -/

/-- Conversion of the scanned `long` to the `pid_t` (32-bit `int`) parameter of
`hide_process`. -/
def to_pid_t (pid : Int) : Int := (pid + 2 ^ 31) % 2 ^ 32 - 2 ^ 31

/-- The `for` loop of the `add` branch of `device_write`, over the integers
`sscanf` reads one after the other: `hide_process(pid)` for each. -/
def device_write_add (h : Host) (pids : List Int) (hidden_proc : Registry) : Registry :=
  match pids with
  | [] => hidden_proc
  | pid :: rest => device_write_add h rest (hide_process h (to_pid_t pid) hidden_proc).2

/-! ## Vocabulary of the specification -/

mutual
/-- The identifiers of a task and of all its descendants, depth first. -/
def subtree_tgids : task_struct → List Int
  | .mk tgid _ children => tgid :: children_tgids children
/-- The identifiers of the subtrees of a list of siblings. -/
def children_tgids : List task_struct → List Int
  | [] => []
  | c :: rest => subtree_tgids c ++ children_tgids rest
end

mutual
/-- A task and all its descendants, depth first. -/
def subtree_tasks : task_struct → List task_struct
  | .mk tgid rp children => .mk tgid rp children :: children_tasks children
/-- The tasks of the subtrees of a list of siblings. -/
def children_tasks : List task_struct → List task_struct
  | [] => []
  | c :: rest => subtree_tasks c ++ children_tasks rest
end

mutual
/-- The records of a walk that finds every task new: the task with the given
parent tag, then its children's subtrees, each child tagged with the task's
`tgid`. -/
def walk_records : task_struct → Int → Registry
  | .mk tgid _ children, parent => ⟨tgid, parent⟩ :: children_records children tgid
/-- The records of the subtrees of a list of siblings under the parent `tgid`. -/
def children_records : List task_struct → Int → Registry
  | [], _ => []
  | c :: rest, tgid => walk_records c tgid ++ children_records rest tgid
end

mutual
/-- The task with identifier `pid` in a tree, if any (first in depth-first
order). -/
def find_task : task_struct → Int → Option task_struct
  | .mk tgid rp children, pid =>
    if tgid = pid then some (.mk tgid rp children) else find_task_list children pid
/-- The task with identifier `pid` among the subtrees of a list of siblings. -/
def find_task_list : List task_struct → Int → Option task_struct
  | [], _ => none
  | c :: rest, pid =>
    match find_task c pid with
    | some t => some t
    | none => find_task_list rest pid
end

/-- The host whose live tasks are the nodes of one tree, each thread-group
leader found under its own identifier. -/
def host_of_tree (init : task_struct) : Host where
  find_get_pid := fun pid => if (find_task init pid).isSome then some ⟨pid⟩ else none
  pid_task := fun p => find_task init p.nr

/-- The identifier `pid` names a live process of the host: the two lookups of
`hide_process` find its task `origin`, and `origin` is the process itself, the
thread-group leader, whose `tgid` is `pid` (the lookup is by thread id and the
record stores `origin->tgid`; the two agree exactly for a process). -/
def names_live_process (h : Host) (pid : Int) (origin : task_struct) : Prop :=
  ∃ tmp, h.find_get_pid pid = some tmp ∧ h.pid_task tmp = some origin ∧ origin.tgid = pid

/-- The lookups of `hide_process` both succeed for `pid`. -/
def is_live (h : Host) (pid : Int) : Bool :=
  match h.find_get_pid pid with
  | none => false
  | some tmp => (h.pid_task tmp).isSome

/-- The identifier `x` is linked to `pid` in the registry: it is `pid`, or some
record with id `x` has a parent that is linked to `pid`. -/
inductive Linked (hp : Registry) (pid : Int) : Int → Prop
  | base : Linked hp pid pid
  | step (r : pid_node_t) (y : Int) : Linked hp pid y → r ∈ hp → r.parent = y → Linked hp pid r.id

/-- The example of the specification: `init` (1) is the parent of `root` (10),
whose children are `c1` (11) and `c2` (12); `g1` (13) is the child of `c1`. -/
def demo_root : task_struct :=
  .mk 10 (some 1) [.mk 11 (some 10) [.mk 13 (some 11) []], .mk 12 (some 10) []]

/-- The example tree under its `init` task. -/
def demo_init : task_struct := .mk 1 none [demo_root]

/-- The host of the example. -/
def demo_host : Host := host_of_tree demo_init

/-- The contract of the original primitive `find_ge_pid` over the finite set
`live` of live identifiers: the pid it returns is the least live identifier
that is at least its argument, and it returns null when there is none. -/
def is_find_ge_pid (live : List Int) (real_find_ge_pid : Int → Option struct_pid) : Prop :=
  ∀ nr, (∀ pid, real_find_ge_pid nr = some pid →
      pid.nr ∈ live ∧ nr ≤ pid.nr ∧ ∀ w ∈ live, nr ≤ w → pid.nr ≤ w) ∧
    (real_find_ge_pid nr = none → ∀ w ∈ live, w < nr)

/-- The value `res` is the least live identifier that is at least `bound` and
is not hidden, or null when every live identifier from `bound` on is hidden. -/
def is_next_visible (live : List Int) (hidden_proc : Registry) (bound : Int)
    (res : Option struct_pid) : Prop :=
  (∀ pid, res = some pid →
      pid.nr ∈ live ∧ bound ≤ pid.nr ∧ is_hidden_proc hidden_proc pid.nr = false ∧
        ∀ w ∈ live, bound ≤ w → is_hidden_proc hidden_proc w = false → pid.nr ≤ w) ∧
    (res = none → ∀ w ∈ live, bound ≤ w → is_hidden_proc hidden_proc w = true)

/-- A primitive that meets the contract: the least element of `live` that is at
least `nr`, by a scan that keeps the smallest candidate. -/
def scan_find_ge_pid (live : List Int) (nr : Int) : Option struct_pid :=
  match live with
  | [] => none
  | w :: rest =>
    match scan_find_ge_pid rest nr with
    | none => if nr ≤ w then some ⟨w⟩ else none
    | some pid => if nr ≤ w ∧ w < pid.nr then some ⟨w⟩ else some pid

/-- The registries the module can be in: it starts empty, and each request
changes it by one `hide_process` call, answered by whatever host state is
current, or by one `unhide_process` call that returns. -/
inductive Reachable : Registry → Prop
  | empty : Reachable []
  | hide (h : Host) (pid : Int) (hp : Registry) :
      Reachable hp → Reachable (hide_process h pid hp).2
  | unhide (fuel : Nat) (pid rc : Int) (hp res : Registry) :
      Reachable hp → unhide_process fuel pid hp = some (rc, res) → Reachable res

/-- The number of records of the registry whose `id` is `x`. -/
def id_count (hp : Registry) (x : Int) : Nat := List.countP (fun r => decide (r.id = x)) hp

/-- The cursor has passed `done`: none of its records has `pid` as id or as
parent. -/
def Passed (pid : Int) (done : Registry) : Prop := ∀ r ∈ done, r.id ≠ pid ∧ r.parent ≠ pid

/-- From the state `(done, rest)` the loop for `pid` returns, with any large
enough fuel, the list filtered to the records not linked to `pid`. -/
def LoopSpec (pid : Int) (done rest : Registry) : Prop :=
  ∃ N, ∀ fuel, N ≤ fuel → ∀ keep : pid_node_t → Bool,
    (∀ r ∈ done ++ rest, (keep r = true ↔ ¬ Linked (done ++ rest) pid r.id)) →
      unhide_loop fuel pid done rest = some ((done ++ rest).filter keep)

/-- The registry of the enumeration example: 5, 6 and 7 are hidden. -/
def demo_hidden : Registry := [⟨5, 1⟩, ⟨6, 5⟩, ⟨7, 5⟩]

/-- The live identifiers of the enumeration example. -/
def demo_live_ids : List Int := [1, 2, 3, 4, 5, 6, 7, 8, 9, 10]

/-- A registry with a parent cycle, a self-parent and a duplicate id. -/
def demo_tangled : Registry := [⟨1, 2⟩, ⟨2, 1⟩, ⟨3, 3⟩, ⟨4, 2⟩, ⟨1, 9⟩, ⟨5, 3⟩]

/-! ## Command transport -/

/-- The errno value `EAGAIN`. -/
def EAGAIN : Int := 11

/-- The errno value `ENOENT`. -/
def ENOENT : Int := 2

/-- The bytes (`char` values) of a string literal, without a terminating zero. -/
def ascii (s : String) : List Nat := s.toList.map Char.toNat

/-- The array `char add_message[] = "add"`, terminating zero included. -/
def add_message : List Nat := ascii "add" ++ [0]

/-- The array `char del_message[] = "del"`, terminating zero included. -/
def del_message : List Nat := ascii "del" ++ [0]

/-- The kernel's `isspace`: tab to carriage return, space, and the no-break
space 0xa0. -/
def isspace (c : Nat) : Bool := decide ((9 ≤ c ∧ c ≤ 13) ∨ c = 32 ∨ c = 160)

/-- The kernel's `isdigit`. -/
def isdigit (c : Nat) : Bool := decide (48 ≤ c ∧ c ≤ 57)

/-- The kernel's `skip_spaces`. -/
def skip_spaces : List Nat → List Nat
  | [] => []
  | c :: rest => if isspace c then skip_spaces rest else c :: rest

/-- The digit loop of the kernel's integer scan in base 10: the value of the
digits read onto `acc`, and what follows them. -/
def parse_integer : List Nat → Nat → Nat × List Nat
  | [], acc => (acc, [])
  | c :: rest, acc =>
    if isdigit c then parse_integer rest (acc * 10 + (c - 48)) else (acc, c :: rest)

/-- An integer reduced to the 64-bit two's complement `long`. -/
def to_long (x : Int) : Int := (x + 2 ^ 63) % 2 ^ 64 - 2 ^ 63

/-- The kernel library call `sscanf(cut, "%ld%n", &pid, &length) == 1`, which is
not part of the module: white space is skipped, an optional `-` and at least one
digit are required, and the digits are read in base 10 into a 64-bit value.  The
result is `pid` and `length`, the number of bytes consumed; `none` stands for a
return value other than 1.  The bytes are those from the cursor on; a zero byte
is neither white space nor a digit, so the scan stops there. -/
def sscanf_ld_n (str : List Nat) : Option (Int × Nat) :=
  match skip_spaces str with
  | [] => none
  | c :: rest =>
    if c = 45 then
      match rest with
      | [] => none
      | d :: _ =>
        if isdigit d then
          some (to_long (-((parse_integer rest 0).1 : Int)),
            str.length - (parse_integer rest 0).2.length)
        else none
    else if isdigit c then
      some (to_long ((parse_integer (c :: rest) 0).1 : Int),
        str.length - (parse_integer (c :: rest) 0).2.length)
    else none

/-- How a request ends: it returns, or it reads a byte outside the allocated
`message`, or the fuel of the model runs out. -/
inductive Outcome (α : Type) where
  | ok (a : α)
  | out_of_bounds
  | out_of_fuel
deriving DecidableEq, Repr

/-- The loop `for(cut = message + start; sscanf(cut, "%ld%n", &pid, &length) == 1;
cut += length) act(pid);` shared by the two branches of `device_write`.  The
cursor `cut` is an offset into `message`; `sscanf` receives the bytes from the
cursor to the end of the allocation, and a cursor at or past the end of the
allocation is a read outside it.  `act` is `hide_process` or `unhide_process`
on the scanned `long`, narrowed to `pid_t`. -/
def request_loop (sscanf : List Nat → Option (Int × Nat))
    (act : Int → Registry → Option Registry) (message : List Nat) :
    Nat → Nat → Registry → Outcome Registry
  | 0, _, _ => .out_of_fuel
  | fuel + 1, cut, hidden_proc =>
    if cut < message.length then
      match sscanf (message.drop cut) with
      | none => .ok hidden_proc
      | some (pid, length) =>
        match act (to_pid_t pid) hidden_proc with
        | none => .out_of_fuel
        | some hp => request_loop sscanf act message fuel (cut + length) hp
    else .out_of_bounds

/-- Function `device_write(filep, buffer, len, offset)`: `buffer` holds the
`len` bytes of the request, `copy_from_user` and `kmalloc` are taken to succeed,
and `message` is the zero-filled copy of `len + 1` bytes.  The result is the
returned value, the new `*offset` and the new registry.  `fuel` bounds the two
loops and each `unhide_process` call. -/
def device_write (sscanf : List Nat → Option (Int × Nat)) (h : Host) (fuel : Nat)
    (buffer : List Nat) (offset : Int) (hidden_proc : Registry) :
    Outcome (Int × Int × Registry) :=
  if buffer.length < add_message.length - 1 ∧ buffer.length < del_message.length - 1 then
    .ok (-EAGAIN, offset, hidden_proc)
  else if (buffer ++ [0]).take (add_message.length - 1)
      = add_message.take (add_message.length - 1) then
    match request_loop sscanf (fun pid hp => some (hide_process h pid hp).2) (buffer ++ [0])
        fuel add_message.length hidden_proc with
    | .ok hp => .ok (buffer.length, buffer.length, hp)
    | .out_of_bounds => .out_of_bounds
    | .out_of_fuel => .out_of_fuel
  else if (buffer ++ [0]).take (del_message.length - 1)
      = del_message.take (del_message.length - 1) then
    match request_loop sscanf
        (fun pid hp => (unhide_process fuel pid hp).map Prod.snd) (buffer ++ [0])
        fuel del_message.length hidden_proc with
    | .ok hp => .ok (buffer.length, buffer.length, hp)
    | .out_of_bounds => .out_of_bounds
    | .out_of_fuel => .out_of_fuel
  else .ok (-EAGAIN, offset, hidden_proc)

/-- The del loop over already scanned integers: `unhide_process(pid)` for each,
in order. -/
def device_write_del (fuel : Nat) (pids : List Int) (hidden_proc : Registry) : Option Registry :=
  match pids with
  | [] => some hidden_proc
  | pid :: rest =>
    match unhide_process fuel (to_pid_t pid) hidden_proc with
    | none => none
    | some (_, hp) => device_write_del fuel rest hp

/-- A request applied to already scanned integers: `act` on each of them,
narrowed to `pid_t`, in order; `none` when a call runs out of fuel. -/
def request_fold (act : Int → Registry → Option Registry) : List Int → Registry → Option Registry
  | [], hidden_proc => some hidden_proc
  | pid :: rest, hidden_proc =>
    match act (to_pid_t pid) hidden_proc with
    | none => none
    | some hp => request_fold act rest hp

/-- The decimal digits of `n`, most significant first, as the kernel's number
formatter emits them; `fuel` bounds the number of digits. -/
def dec_digits : Nat → Nat → List Nat
  | 0, _ => []
  | fuel + 1, n => if n < 10 then [48 + n] else dec_digits fuel (n / 10) ++ [48 + n % 10]

/-- The conversion `%d` of `sprintf`. -/
def format_d (v : Int) : List Nat :=
  if v < 0 then 45 :: dec_digits (v.natAbs + 1) v.natAbs else dec_digits (v.natAbs + 1) v.natAbs

/-- The kernel's `sprintf` for formats whose only conversion is `%d`: the text
written, without the terminating zero. -/
def sprintf : List Nat → List Int → List Nat
  | [], _ => []
  | [c], _ => [c]
  | c :: d :: rest, args =>
    if c = 37 ∧ d = 100 then
      match args with
      | [] => sprintf rest []
      | a :: more => format_d a ++ sprintf rest more
    else c :: sprintf (d :: rest) args

/-- The macro `OUTPUT_BUFFER_FORMAT`. -/
def OUTPUT_BUFFER_FORMAT : List Nat := ascii "parent pid: %d pid: %d\n"

/-- The macro `MAX_MESSAGE_SIZE`: `sizeof(OUTPUT_BUFFER_FORMAT) + 10`, where
`sizeof` counts the terminating zero. -/
def MAX_MESSAGE_SIZE : Nat := (OUTPUT_BUFFER_FORMAT.length + 1) + 10

/-- The loop of `device_read`: `user` is what has been copied to the user buffer
so far and `offset` is `*offset`; each record is formatted into `message` and
copied to `buffer + *offset`, which is right behind the previous copy.  The
capacity of the array `message` is not part of this model. -/
def device_read_loop : Registry → Int → List Nat → Int × List Nat
  | [], offset, user => (offset, user)
  | proc :: rest, offset, user =>
    device_read_loop rest
      (offset + (sprintf OUTPUT_BUFFER_FORMAT [proc.parent, proc.id]).length)
      (user ++ sprintf OUTPUT_BUFFER_FORMAT [proc.parent, proc.id])

/-- Function `device_read(filep, buffer, len, offset)`: the returned value, the
new `*offset` and the bytes copied to the user buffer.  `copy_to_user` is taken
to succeed; `len` is not read by the code. -/
def device_read (hidden_proc : Registry) (offset : Int) : Int × Int × List Nat :=
  if offset ≠ 0 then (0, offset, [])
  else
    ((device_read_loop hidden_proc offset []).1, (device_read_loop hidden_proc offset []).1,
      (device_read_loop hidden_proc offset []).2)

/-- The line of the read path for one record. -/
def record_line (proc : pid_node_t) : List Nat :=
  ascii "parent pid: " ++ (format_d proc.parent ++ (ascii " pid: " ++ (format_d proc.id ++ [10])))

/-! ## Interception engine -/

/-- The part of the host's interception state that `hook_install` changes:
whether the filter of `hook->ops` is set to the target address and whether
`hook->ops` is registered. -/
structure ftrace_state where
  filter_set : Bool
  registered : Bool
deriving DecidableEq, Repr

/-- The outcomes of the three host calls of `hook_install`: the address
`kallsyms_lookup_name` returns (0 when the symbol is not found) and the values
`ftrace_set_filter_ip(.., 0, 0)` and `register_ftrace_function` return (0 on
success). -/
structure ftrace_calls where
  kallsyms_lookup_name : Nat
  ftrace_set_filter_ip : Int
  register_ftrace_function : Int

/-- Function `hook_resolve_addr`: the returned value and `hook->address`. -/
def hook_resolve_addr (k : ftrace_calls) : Int × Nat :=
  if k.kallsyms_lookup_name = 0 then (-ENOENT, k.kallsyms_lookup_name)
  else (0, k.kallsyms_lookup_name)

/-- Function `hook_install` on the host state `st`: the returned value and the
new host state.  The host calls are kernel code; their effect on the state is
the one the specification assumes: a call that fails changes nothing, a
successful `ftrace_set_filter_ip(.., 0, 0)` sets the filter, a successful
`register_ftrace_function` registers the replacement, and the removal
`ftrace_set_filter_ip(.., 1, 0)` succeeds and clears the filter. -/
def hook_install (k : ftrace_calls) (st : ftrace_state) : Int × ftrace_state :=
  if (hook_resolve_addr k).1 ≠ 0 then ((hook_resolve_addr k).1, st)
  else if k.ftrace_set_filter_ip ≠ 0 then (k.ftrace_set_filter_ip, st)
  else if k.register_ftrace_function ≠ 0 then
    (k.register_ftrace_function, ⟨false, st.registered⟩)
  else (0, ⟨true, true⟩)

/-- The state in which no redirection is installed. -/
def Uninstalled : ftrace_state := ⟨false, false⟩

/-- The host of the grammar examples: 1, 2, 3 and 5 are children of task 100. -/
def demo_flat_host : Host :=
  host_of_tree (.mk 100 none
    [.mk 1 (some 100) [], .mk 2 (some 100) [], .mk 3 (some 100) [], .mk 5 (some 100) []])

/-- The value of a run of decimal digits. -/
def decimal_value (ds : List Nat) : Nat := (parse_integer ds 0).1

/-- A token of an integer list: a run of white space, possibly empty, followed
by a nonempty run of decimal digits. -/
def is_token (t : List Nat × List Nat) : Prop :=
  (∀ c ∈ t.1, isspace c = true) ∧ t.2 ≠ [] ∧ ∀ c ∈ t.2, isdigit c = true

/-- The text of a list of tokens. -/
def render_tokens : List (List Nat × List Nat) → List Nat
  | [] => []
  | t :: rest => t.1 ++ (t.2 ++ render_tokens rest)

/-- The integers of a list of tokens, as `sscanf` delivers them. -/
def token_values (toks : List (List Nat × List Nat)) : List Int :=
  toks.map (fun t => (decimal_value t.2 : Int))

/-- A registry with two hide requests under the same parent 1: the example tree
and the single task 20. -/
def demo_two_roots : Registry := [⟨10, 1⟩, ⟨11, 10⟩, ⟨13, 11⟩, ⟨12, 10⟩, ⟨20, 1⟩]

/-! ## Lemmas -/

/-! ### The registry scan and the tree walk -/

theorem is_hidden_proc_iff (hp : Registry) (x : Int) :
    is_hidden_proc hp x = true ↔ ∃ r ∈ hp, r.id = x := by
  induction hp with
  | nil => simp [is_hidden_proc]
  | cons p rest ih =>
    by_cases h : p.id = x <;> simp [is_hidden_proc, h, ih]

theorem new_node_eq (hp : Registry) (x : Int) : new_node hp x = !is_hidden_proc hp x := by
  induction hp with
  | nil => simp [new_node, is_hidden_proc]
  | cons p rest ih =>
    by_cases h : p.id = x <;> simp [new_node, is_hidden_proc, h, ih]

theorem is_hidden_proc_append (hp hq : Registry) (x : Int) :
    is_hidden_proc (hp ++ hq) x = (is_hidden_proc hp x || is_hidden_proc hq x) := by
  induction hp with
  | nil => simp [is_hidden_proc]
  | cons p rest ih =>
    by_cases h : p.id = x <;> simp [is_hidden_proc, h, ih]

theorem travel_all_add_node_mk (tgid : Int) (rp : Option Int) (cs : List task_struct)
    (parent : Int) (hp : Registry) :
    travel_all_add_node (.mk tgid rp cs) parent hp
      = travel_children cs tgid (add_node hp tgid parent) := by
  rw [travel_all_add_node]

theorem travel_children_nil (tgid : Int) (hp : Registry) : travel_children [] tgid hp = hp := by
  rw [travel_children]

theorem travel_children_cons (c : task_struct) (cs : List task_struct) (tgid : Int)
    (hp : Registry) :
    travel_children (c :: cs) tgid hp = travel_children cs tgid (travel_all_add_node c tgid hp) := by
  rw [travel_children]

theorem task_ind {P : task_struct → Prop} {Q : List task_struct → Prop}
    (h1 : ∀ tgid rp cs, Q cs → P (.mk tgid rp cs)) (h2 : Q [])
    (h3 : ∀ c cs, P c → Q cs → Q (c :: cs)) : (∀ t, P t) ∧ (∀ cs, Q cs) :=
  ⟨fun t => @task_struct.rec P Q h1 h2 h3 t, fun cs => @task_struct.rec_1 P Q h1 h2 h3 cs⟩

theorem add_node_hidden (hp : Registry) (tgid parent : Int) :
    is_hidden_proc (add_node hp tgid parent) tgid = true := by
  unfold add_node
  rw [new_node_eq]
  cases h : is_hidden_proc hp tgid <;> simp [h, is_hidden_proc_append, is_hidden_proc]

theorem add_node_mono (hp : Registry) (tgid parent x : Int) (h : is_hidden_proc hp x = true) :
    is_hidden_proc (add_node hp tgid parent) x = true := by
  unfold add_node
  split <;> simp [is_hidden_proc_append, h]

theorem travel_mono_both :
    (∀ (t : task_struct) (parent : Int) (hp : Registry) (x : Int),
      is_hidden_proc hp x = true → is_hidden_proc (travel_all_add_node t parent hp) x = true) ∧
    (∀ (cs : List task_struct) (tgid : Int) (hp : Registry) (x : Int),
      is_hidden_proc hp x = true → is_hidden_proc (travel_children cs tgid hp) x = true) := by
  apply task_ind
  · intro tgid rp cs ih parent hp x h
    rw [travel_all_add_node_mk]
    exact ih _ _ _ (add_node_mono _ _ _ _ h)
  · intro tgid hp x h
    rw [travel_children_nil]; exact h
  · intro c cs ihc ihcs tgid hp x h
    rw [travel_children_cons]
    exact ihcs _ _ _ (ihc _ _ _ h)

theorem travel_hides_both :
    (∀ (t : task_struct) (parent : Int) (hp : Registry), ∀ x ∈ subtree_tgids t,
      is_hidden_proc (travel_all_add_node t parent hp) x = true) ∧
    (∀ (cs : List task_struct) (tgid : Int) (hp : Registry), ∀ x ∈ children_tgids cs,
      is_hidden_proc (travel_children cs tgid hp) x = true) := by
  apply task_ind
  · intro tgid rp cs ih parent hp x hx
    rw [travel_all_add_node_mk]
    rw [subtree_tgids, List.mem_cons] at hx
    rcases hx with rfl | hx
    · exact travel_mono_both.2 _ _ _ _ (add_node_hidden _ _ _)
    · exact ih _ _ x hx
  · intro tgid hp x hx
    simp [children_tgids] at hx
  · intro c cs ihc ihcs tgid hp x hx
    rw [travel_children_cons]
    rw [children_tgids, List.mem_append] at hx
    rcases hx with hx | hx
    · exact travel_mono_both.2 _ _ _ _ (ihc _ _ x hx)
    · exact ihcs _ _ x hx

theorem is_hidden_proc_false_iff (hp : Registry) (x : Int) :
    is_hidden_proc hp x = false ↔ ∀ r ∈ hp, r.id ≠ x := by
  rw [← Bool.not_eq_true, is_hidden_proc_iff]
  simp

theorem add_node_of_hidden (hp : Registry) (tgid parent : Int)
    (h : is_hidden_proc hp tgid = true) : add_node hp tgid parent = hp := by
  simp [add_node, new_node_eq, h]

theorem add_node_of_not_hidden (hp : Registry) (tgid parent : Int)
    (h : is_hidden_proc hp tgid = false) : add_node hp tgid parent = hp ++ [⟨tgid, parent⟩] := by
  simp [add_node, new_node_eq, h]

theorem id_count_eq_zero (hp : Registry) (x : Int) (h : is_hidden_proc hp x = false) :
    id_count hp x = 0 := by
  rw [is_hidden_proc_false_iff] at h
  simp only [id_count, List.countP_eq_zero]
  intro r hr
  simpa using h r hr

theorem id_count_pos (hp : Registry) (x : Int) (h : is_hidden_proc hp x = true) :
    0 < id_count hp x := by
  rw [is_hidden_proc_iff] at h
  obtain ⟨r, hr, hx⟩ := h
  simp only [id_count, List.countP_pos_iff]
  exact ⟨r, hr, by simpa using hx⟩

theorem id_count_add_node (hp : Registry) (tgid parent x : Int) (h : id_count hp x ≤ 1) :
    id_count (add_node hp tgid parent) x ≤ 1 := by
  cases hh : is_hidden_proc hp tgid
  · rw [add_node_of_not_hidden _ _ _ hh]
    by_cases hx : tgid = x
    · subst hx
      have := id_count_eq_zero hp tgid hh
      simp only [id_count] at this
      simp [id_count, List.countP_append, this]
    · simpa [id_count, List.countP_append, List.countP_cons, hx] using h
  · rw [add_node_of_hidden _ _ _ hh]; exact h

theorem nodup_ids_iff (hp : Registry) :
    (hp.map pid_node_t.id).Nodup ↔ ∀ x, id_count hp x ≤ 1 := by
  rw [List.nodup_iff_count_le_one]
  constructor
  · intro h x
    have := h x
    rw [List.count_eq_countP, List.countP_map] at this
    simpa [id_count, Function.comp_def] using this
  · intro h x
    rw [List.count_eq_countP, List.countP_map]
    simpa [id_count, Function.comp_def] using h x

theorem travel_count_both (x : Int) :
    (∀ (t : task_struct) (parent : Int) (hp : Registry),
      id_count hp x ≤ 1 → id_count (travel_all_add_node t parent hp) x ≤ 1) ∧
    (∀ (cs : List task_struct) (tgid : Int) (hp : Registry),
      id_count hp x ≤ 1 → id_count (travel_children cs tgid hp) x ≤ 1) := by
  apply task_ind
  · intro tgid rp cs ih parent hp h
    rw [travel_all_add_node_mk]
    exact ih _ _ (id_count_add_node _ _ _ _ h)
  · intro tgid hp h
    rw [travel_children_nil]; exact h
  · intro c cs ihc ihcs tgid hp h
    rw [travel_children_cons]
    exact ihcs _ _ (ihc _ _ h)

theorem travel_fixed_both :
    (∀ (t : task_struct) (parent : Int) (hp : Registry),
      (∀ x ∈ subtree_tgids t, is_hidden_proc hp x = true) →
        travel_all_add_node t parent hp = hp) ∧
    (∀ (cs : List task_struct) (tgid : Int) (hp : Registry),
      (∀ x ∈ children_tgids cs, is_hidden_proc hp x = true) →
        travel_children cs tgid hp = hp) := by
  apply task_ind
  · intro tgid rp cs ih parent hp h
    rw [travel_all_add_node_mk, add_node_of_hidden _ _ _ (h tgid (by simp [subtree_tgids]))]
    exact ih _ _ (fun x hx => h x (by simp [subtree_tgids, hx]))
  · intro tgid hp _
    rw [travel_children_nil]
  · intro c cs ihc ihcs tgid hp h
    rw [travel_children_cons, ihc _ _ (fun x hx => h x (by simp [children_tgids, hx]))]
    exact ihcs _ _ (fun x hx => h x (by simp [children_tgids, hx]))

theorem walk_records_ids_both :
    (∀ (t : task_struct) (parent : Int),
      (walk_records t parent).map pid_node_t.id = subtree_tgids t) ∧
    (∀ (cs : List task_struct) (tgid : Int),
      (children_records cs tgid).map pid_node_t.id = children_tgids cs) := by
  apply task_ind
  · intro tgid rp cs ih parent
    simp [walk_records, subtree_tgids, ih]
  · intro tgid
    simp [children_records, children_tgids]
  · intro c cs ihc ihcs tgid
    simp [children_records, children_tgids, ihc, ihcs]

theorem is_hidden_walk_records (t : task_struct) (parent x : Int) :
    is_hidden_proc (walk_records t parent) x = true ↔ x ∈ subtree_tgids t := by
  rw [is_hidden_proc_iff, ← walk_records_ids_both.1 t parent]
  simp

theorem travel_extends_both :
    (∀ (t : task_struct) (parent : Int) (hp : Registry),
      ∃ new, travel_all_add_node t parent hp = hp ++ new ∧
        ∀ r ∈ new, r ∈ walk_records t parent) ∧
    (∀ (cs : List task_struct) (tgid : Int) (hp : Registry),
      ∃ new, travel_children cs tgid hp = hp ++ new ∧
        ∀ r ∈ new, r ∈ children_records cs tgid) := by
  apply task_ind
  · intro tgid rp cs ih parent hp
    rw [travel_all_add_node_mk]
    obtain ⟨new, hnew, hsub⟩ := ih tgid (add_node hp tgid parent)
    cases hh : is_hidden_proc hp tgid
    · rw [add_node_of_not_hidden _ _ _ hh] at hnew ⊢
      refine ⟨⟨tgid, parent⟩ :: new, by simpa using hnew, ?_⟩
      intro r hr
      rw [walk_records]
      rcases List.mem_cons.1 hr with h | h
      · simp [h]
      · exact List.mem_cons_of_mem _ (hsub r h)
    · rw [add_node_of_hidden _ _ _ hh] at hnew ⊢
      refine ⟨new, hnew, ?_⟩
      intro r hr
      rw [walk_records]
      exact List.mem_cons_of_mem _ (hsub r hr)
  · intro tgid hp
    exact ⟨[], by simp [travel_children_nil], by simp⟩
  · intro c cs ihc ihcs tgid hp
    rw [travel_children_cons]
    obtain ⟨n1, h1, s1⟩ := ihc tgid hp
    obtain ⟨n2, h2, s2⟩ := ihcs tgid (travel_all_add_node c tgid hp)
    refine ⟨n1 ++ n2, by rw [h2, h1, List.append_assoc], ?_⟩
    intro r hr
    rw [children_records]
    rcases List.mem_append.1 hr with h | h
    · exact List.mem_append_left _ (s1 r h)
    · exact List.mem_append_right _ (s2 r h)

theorem travel_fresh_both :
    (∀ (t : task_struct) (parent : Int) (hp : Registry),
      (∀ x ∈ subtree_tgids t, is_hidden_proc hp x = false) → (subtree_tgids t).Nodup →
        travel_all_add_node t parent hp = hp ++ walk_records t parent) ∧
    (∀ (cs : List task_struct) (tgid : Int) (hp : Registry),
      (∀ x ∈ children_tgids cs, is_hidden_proc hp x = false) → (children_tgids cs).Nodup →
        travel_children cs tgid hp = hp ++ children_records cs tgid) := by
  apply task_ind
  · intro tgid rp cs ih parent hp hfresh hnd
    rw [subtree_tgids, List.nodup_cons] at hnd
    rw [travel_all_add_node_mk,
      add_node_of_not_hidden _ _ _ (hfresh tgid (by simp [subtree_tgids])), ih _ _ _ hnd.2]
    · simp [walk_records]
    · intro x hx
      have hne : tgid ≠ x := fun h => hnd.1 (h ▸ hx)
      simp [is_hidden_proc_append, is_hidden_proc, hne,
        hfresh x (by simp [subtree_tgids, hx])]
  · intro tgid hp _ _
    simp [travel_children_nil, children_records]
  · intro c cs ihc ihcs tgid hp hfresh hnd
    rw [children_tgids, List.nodup_append] at hnd
    rw [travel_children_cons, ihc _ _ (fun x hx => hfresh x (by simp [children_tgids, hx])) hnd.1,
      ihcs _ _ _ hnd.2.1]
    · simp [children_records]
    · intro x hx
      rw [is_hidden_proc_append, hfresh x (by simp [children_tgids, hx]), Bool.false_or,
        ← Bool.not_eq_true, is_hidden_walk_records]
      exact fun h => hnd.2.2 h hx

/-! ### Links between records -/

theorem Linked.mono {hp hq : Registry} {pid x : Int} (hsub : ∀ r ∈ hp, r ∈ hq)
    (h : Linked hp pid x) : Linked hq pid x := by
  induction h with
  | base => exact Linked.base
  | step r y _ hr hy ih => exact Linked.step r y ih (hsub r hr) hy

theorem Linked.trans {hp : Registry} {a b c : Int} (hab : Linked hp a b) (hbc : Linked hp b c) :
    Linked hp a c := by
  induction hbc with
  | base => exact hab
  | step r y _ hr hy ih => exact Linked.step r y ih hr hy

theorem Linked.of_parent {hp : Registry} {pid : Int} {r : pid_node_t} (hr : r ∈ hp)
    (h : r.parent = pid) : Linked hp pid r.id :=
  Linked.step r pid Linked.base hr h

theorem Linked.eq_of_no_child {hp : Registry} {pid x : Int} (hno : ∀ r ∈ hp, r.parent ≠ pid)
    (h : Linked hp pid x) : x = pid := by
  induction h with
  | base => rfl
  | step r y _ hr hy ih => exact absurd (hy.trans ih) (hno r hr)

/-- Dropping records whose id is `pid` itself loses no link to `pid`. -/
theorem Linked.drop_own {hp hq : Registry} {pid x : Int}
    (hdrop : ∀ r ∈ hp, r ∈ hq ∨ r.id = pid) (h : Linked hp pid x) : Linked hq pid x := by
  induction h with
  | base => exact Linked.base
  | step r y _ hr hy ih =>
    rcases hdrop r hr with h1 | h1
    · exact Linked.step r y ih h1 hy
    · rw [h1]; exact Linked.base

/-- Dropping the records linked to `z` leaves every link to `pid` either intact
or reachable through `z`. -/
theorem Linked.drop_linked {hp hq : Registry} {pid z x : Int}
    (hdrop : ∀ r ∈ hp, r ∈ hq ∨ Linked hp z r.id) (h : Linked hp pid x) :
    Linked hq pid x ∨ Linked hp z x := by
  induction h with
  | base => exact Or.inl Linked.base
  | step r y _ hr hy ih =>
    rcases ih with h1 | h1
    · rcases hdrop r hr with h2 | h2
      · exact Or.inl (Linked.step r y h1 h2 hy)
      · exact Or.inr h2
    · exact Or.inr (Linked.step r y h1 hr hy)

/-! ### The unhide loop -/

theorem unhide_loop_nil (fuel : Nat) (pid : Int) (done : Registry) :
    unhide_loop (fuel + 1) pid done [] = some done := by
  rw [unhide_loop]

theorem unhide_loop_id (fuel : Nat) (pid : Int) (done rest : Registry) (p : pid_node_t)
    (h : p.id = pid) :
    unhide_loop (fuel + 1) pid done (p :: rest) = unhide_loop fuel pid done rest := by
  rw [unhide_loop, if_pos h]

theorem unhide_loop_parent (fuel : Nat) (pid : Int) (done rest : Registry) (p : pid_node_t)
    (h1 : p.id ≠ pid) (h2 : p.parent = pid) :
    unhide_loop (fuel + 1) pid done (p :: rest)
      = (unhide_loop fuel p.id [] (done ++ p :: rest)).bind (unhide_loop fuel pid []) := by
  rw [unhide_loop, if_neg h1, if_pos h2]
  cases unhide_loop fuel p.id [] (done ++ p :: rest) <;> rfl

theorem unhide_loop_skip (fuel : Nat) (pid : Int) (done rest : Registry) (p : pid_node_t)
    (h1 : p.id ≠ pid) (h2 : p.parent ≠ pid) :
    unhide_loop (fuel + 1) pid done (p :: rest) = unhide_loop fuel pid (done ++ [p]) rest := by
  rw [unhide_loop, if_neg h1, if_neg h2]

theorem Passed.nil (pid : Int) : Passed pid [] := by
  intro r hr; cases hr

theorem Passed.snoc {pid : Int} {done : Registry} {p : pid_node_t} (h : Passed pid done)
    (h1 : p.id ≠ pid) (h2 : p.parent ≠ pid) : Passed pid (done ++ [p]) := by
  intro r hr
  rcases List.mem_append.1 hr with h3 | h3
  · exact h r h3
  · rw [List.mem_singleton] at h3; subst h3; exact ⟨h1, h2⟩

theorem LoopSpec.at_end {pid : Int} {done : Registry} (h : Passed pid done) :
    LoopSpec pid done [] := by
  refine ⟨1, ?_⟩
  intro fuel hfuel keep hkeep
  obtain ⟨f, rfl⟩ : ∃ f, fuel = f + 1 := ⟨fuel - 1, by omega⟩
  rw [unhide_loop_nil, List.append_nil, List.filter_eq_self.2]
  intro r hr
  rw [hkeep r (by simpa using hr), List.append_nil]
  intro hl
  exact (h r hr).1 (Linked.eq_of_no_child (fun q hq => (h q hq).2) hl)

theorem LoopSpec.skip {pid : Int} {done rest : Registry} {p : pid_node_t}
    (h1 : p.id ≠ pid) (h2 : p.parent ≠ pid) (h : LoopSpec pid (done ++ [p]) rest) :
    LoopSpec pid done (p :: rest) := by
  obtain ⟨N, hN⟩ := h
  refine ⟨N + 1, ?_⟩
  intro fuel hfuel keep hkeep
  obtain ⟨f, rfl⟩ : ∃ f, fuel = f + 1 := ⟨fuel - 1, by omega⟩
  have heq : (done ++ [p]) ++ rest = done ++ p :: rest := by simp
  rw [unhide_loop_skip _ _ _ _ _ h1 h2, hN f (by omega) keep (by rw [heq]; exact hkeep), heq]

theorem LoopSpec.skip_many {pid : Int} (pre : Registry) :
    ∀ {done rest : Registry}, Passed pid pre → LoopSpec pid (done ++ pre) rest →
      LoopSpec pid done (pre ++ rest) := by
  induction pre with
  | nil => intro done rest _ h; simpa using h
  | cons p pre ih =>
    intro done rest hp h
    have hp1 := hp p (List.mem_cons_self _ _)
    refine LoopSpec.skip hp1.1 hp1.2 (ih (fun r hr => hp r (List.mem_cons_of_mem _ hr)) ?_)
    simpa using h

theorem LoopSpec.own {pid : Int} {done rest : Registry} {p : pid_node_t}
    (h1 : p.id = pid) (h : LoopSpec pid done rest) : LoopSpec pid done (p :: rest) := by
  obtain ⟨N, hN⟩ := h
  refine ⟨N + 1, ?_⟩
  intro fuel hfuel keep hkeep
  obtain ⟨f, rfl⟩ : ∃ f, fuel = f + 1 := ⟨fuel - 1, by omega⟩
  have hp : keep p = false := by
    rw [← Bool.not_eq_true, hkeep p (by simp), h1]
    exact fun hc => hc Linked.base
  have hkeep2 : ∀ r ∈ done ++ rest, (keep r = true ↔ ¬ Linked (done ++ rest) pid r.id) := by
    intro r hr
    rw [hkeep r (by simp at hr ⊢; tauto)]
    constructor
    · intro hn hl
      exact hn (Linked.mono (by intro q hq; simp at hq ⊢; tauto) hl)
    · intro hn hl
      refine hn (Linked.drop_own ?_ hl)
      intro q hq
      simp only [List.mem_append, List.mem_cons] at hq ⊢
      rcases hq with hq | rfl | hq
      · exact Or.inl (Or.inl hq)
      · exact Or.inr h1
      · exact Or.inl (Or.inr hq)
  rw [unhide_loop_id _ _ _ _ _ h1, hN f (by omega) keep hkeep2]
  simp [List.filter_append, List.filter_cons, hp]

theorem LoopSpec.child {pid : Int} {done rest : Registry} {p : pid_node_t}
    (h1 : p.id ≠ pid) (h2 : p.parent = pid)
    (hnested : LoopSpec p.id [] (done ++ p :: rest))
    (hrestart : ∀ hp : Registry, hp.length < (done ++ p :: rest).length → LoopSpec pid [] hp) :
    LoopSpec pid done (p :: rest) := by
  classical
  obtain ⟨N1, hN1⟩ := hnested
  let keep1 : pid_node_t → Bool := fun r => decide (¬ Linked (done ++ p :: rest) p.id r.id)
  have hkeep1 : ∀ r, keep1 r = true ↔ ¬ Linked ([] ++ (done ++ p :: rest)) p.id r.id := by
    intro r; simp [keep1]
  have hpM : p ∈ done ++ p :: rest := by simp
  have hshort : ((done ++ p :: rest).filter keep1).length < (done ++ p :: rest).length := by
    rw [List.length_filter_lt_length_iff_exists]
    exact ⟨p, hpM, by simp [keep1, Linked.base]⟩
  obtain ⟨N2, hN2⟩ := hrestart _ hshort
  refine ⟨max N1 N2 + 1, ?_⟩
  intro fuel hfuel keep hkeep
  obtain ⟨f, rfl⟩ : ∃ f, fuel = f + 1 := ⟨fuel - 1, by omega⟩
  let keep2 : pid_node_t → Bool :=
    fun r => decide (¬ Linked ((done ++ p :: rest).filter keep1) pid r.id)
  have hkeep2 : ∀ r, keep2 r = true ↔
      ¬ Linked ([] ++ (done ++ p :: rest).filter keep1) pid r.id := by
    intro r; simp [keep2]
  rw [unhide_loop_parent _ _ _ _ _ h1 h2, hN1 f (by omega) keep1 (fun r _ => hkeep1 r),
    Option.some_bind, List.nil_append, hN2 f (by omega) keep2 (fun r _ => hkeep2 r),
    List.nil_append, List.filter_filter]
  congr 1
  apply List.filter_congr
  intro r hr
  rw [Bool.eq_iff_iff, Bool.and_eq_true, hkeep r hr]
  simp only [keep1, keep2, decide_eq_true_eq]
  constructor
  · rintro ⟨hn2, hn1⟩ hl
    have hdrop : ∀ q ∈ done ++ p :: rest,
        q ∈ (done ++ p :: rest).filter keep1 ∨ Linked (done ++ p :: rest) p.id q.id := by
      intro q hq
      by_cases hq1 : Linked (done ++ p :: rest) p.id q.id
      · exact Or.inr hq1
      · exact Or.inl (List.mem_filter.2 ⟨hq, by simp [keep1, hq1]⟩)
    rcases Linked.drop_linked hdrop hl with h3 | h3
    · exact hn2 h3
    · exact hn1 h3
  · intro hn
    constructor
    · intro hl
      exact hn (Linked.mono (fun q hq => (List.mem_filter.1 hq).1) hl)
    · intro hl
      exact hn (Linked.trans (Linked.of_parent hpM h2) hl)

/-- The first record that the nested call for `z` acts on lies at or before a
record with id `z`; when it is a child of `z` it lies strictly before. -/
theorem first_match (z : Int) (p : pid_node_t) (rest : Registry) (hz : p.id = z) :
    ∀ done : Registry, ∃ pre q post, done ++ p :: rest = pre ++ q :: post ∧ Passed z pre ∧
      (q.id = z ∨ (q.id ≠ z ∧ q.parent = z ∧ pre.length < done.length)) := by
  intro done
  induction done with
  | nil => exact ⟨[], p, rest, rfl, Passed.nil z, Or.inl hz⟩
  | cons a done ih =>
    by_cases ha1 : a.id = z
    · exact ⟨[], a, done ++ p :: rest, rfl, Passed.nil z, Or.inl ha1⟩
    · by_cases ha2 : a.parent = z
      · exact ⟨[], a, done ++ p :: rest, rfl, Passed.nil z, Or.inr ⟨ha1, ha2, by simp⟩⟩
      · obtain ⟨pre, q, post, heq, hpass, hq⟩ := ih
        refine ⟨a :: pre, q, post, by simp [heq], ?_, ?_⟩
        · intro r hr
          rcases List.mem_cons.1 hr with h | h
          · subst h; exact ⟨ha1, ha2⟩
          · exact hpass r h
        · rcases hq with h | ⟨h3, h4, h5⟩
          · exact Or.inl h
          · exact Or.inr ⟨h3, h4, by simpa using h5⟩

theorem loopSpec_all : ∀ (n : Nat) (pid : Int) (done rest : Registry),
    (done ++ rest).length = n → Passed pid done → LoopSpec pid done rest := by
  intro n
  induction n using Nat.strong_induction_on with
  | _ n ihn =>
    have hchild : ∀ (d : Nat) (pid : Int) (done rest : Registry) (p : pid_node_t),
        done.length = d → (done ++ p :: rest).length = n → Passed pid done →
        p.id ≠ pid → p.parent = pid → LoopSpec pid done (p :: rest) := by
      intro d
      induction d using Nat.strong_induction_on with
      | _ d ihd =>
        intro pid done rest p hd hn _ h1 h2
        refine LoopSpec.child h1 h2 ?_ ?_
        · obtain ⟨pre, q, post, heq, hpass, hq⟩ := first_match p.id p rest rfl done
          rw [heq]
          have hlen : (pre ++ q :: post).length = n := by rw [← heq]; exact hn
          refine LoopSpec.skip_many pre hpass ?_
          rw [List.nil_append]
          rcases hq with h | ⟨h3, h4, h5⟩
          · refine LoopSpec.own h (ihn (n - 1) ?_ _ pre post ?_ hpass)
            · simp at hlen; omega
            · simp at hlen ⊢; omega
          · exact ihd pre.length (hd ▸ h5) p.id pre post q rfl hlen hpass h3 h4
        · intro hp hlt
          exact ihn hp.length (hn ▸ hlt) pid [] hp rfl (Passed.nil pid)
    intro pid done rest
    induction rest generalizing done with
    | nil => intro _ hpass; exact LoopSpec.at_end hpass
    | cons p rest ih =>
      intro hn hpass
      by_cases h1 : p.id = pid
      · refine LoopSpec.own h1 (ihn (n - 1) ?_ pid done rest ?_ hpass)
        · simp at hn; omega
        · simp at hn ⊢; omega
      · by_cases h2 : p.parent = pid
        · exact hchild done.length pid done rest p rfl hn hpass h1 h2
        · exact LoopSpec.skip h1 h2 (ih (done ++ [p]) (by simpa using hn) (hpass.snoc h1 h2))

/-- More fuel never changes a result. -/
theorem unhide_loop_fuel_succ : ∀ (fuel : Nat) (pid : Int) (done rest res : Registry),
    unhide_loop fuel pid done rest = some res → unhide_loop (fuel + 1) pid done rest = some res := by
  intro fuel
  induction fuel with
  | zero => intro pid done rest res h; simp [unhide_loop] at h
  | succ f ih =>
    intro pid done rest res h
    cases rest with
    | nil => rw [unhide_loop_nil] at h ⊢; exact h
    | cons p rest =>
      by_cases h1 : p.id = pid
      · rw [unhide_loop_id _ _ _ _ _ h1] at h ⊢
        exact ih _ _ _ _ h
      · by_cases h2 : p.parent = pid
        · rw [unhide_loop_parent _ _ _ _ _ h1 h2] at h ⊢
          cases hn : unhide_loop f p.id [] (done ++ p :: rest) with
          | none => rw [hn] at h; simp at h
          | some mid =>
            rw [hn, Option.some_bind] at h
            rw [ih _ _ _ _ hn, Option.some_bind]
            exact ih _ _ _ _ h
        · rw [unhide_loop_skip _ _ _ _ _ h1 h2] at h ⊢
          exact ih _ _ _ _ h

theorem unhide_loop_fuel_le {fuel fuel2 : Nat} {pid : Int} {done rest res : Registry}
    (hle : fuel ≤ fuel2) (h : unhide_loop fuel pid done rest = some res) :
    unhide_loop fuel2 pid done rest = some res := by
  induction hle with
  | refl => exact h
  | step _ ih => exact unhide_loop_fuel_succ _ _ _ _ _ ih

/-- With enough fuel `unhide_process` returns `SUCCESS` and the registry
filtered to the records not linked to `pid`. -/
theorem unhide_process_filter (pid : Int) (hp : Registry) :
    ∃ N, ∀ fuel, N ≤ fuel → ∀ keep : pid_node_t → Bool,
      (∀ r ∈ hp, (keep r = true ↔ ¬ Linked hp pid r.id)) →
        unhide_process fuel pid hp = some (SUCCESS, hp.filter keep) := by
  obtain ⟨N, hN⟩ := loopSpec_all hp.length pid [] hp rfl (Passed.nil pid)
  refine ⟨N, ?_⟩
  intro fuel hfuel keep hkeep
  rw [unhide_process, hN fuel hfuel keep (by simpa using hkeep)]
  rfl

/-- Whatever fuel lets `unhide_process` return, the result is the same. -/
theorem unhide_process_result {fuel : Nat} {pid rc : Int} {hp res : Registry}
    (h : unhide_process fuel pid hp = some (rc, res)) (keep : pid_node_t → Bool)
    (hkeep : ∀ r ∈ hp, (keep r = true ↔ ¬ Linked hp pid r.id)) :
    rc = SUCCESS ∧ res = hp.filter keep := by
  obtain ⟨N, hN⟩ := unhide_process_filter pid hp
  have h2 := hN (max N fuel) (le_max_left _ _) keep hkeep
  rw [unhide_process] at h h2
  cases hl : unhide_loop fuel pid [] hp with
  | none => rw [hl] at h; simp at h
  | some mid =>
    rw [hl] at h
    rw [unhide_loop_fuel_le (le_max_right N fuel) hl] at h2
    simp only [Option.some.injEq, Prod.mk.injEq] at h h2
    exact ⟨h.1.symm, h.2.symm.trans h2.2⟩

theorem exists_keep (pid : Int) (hp : Registry) :
    ∃ keep : pid_node_t → Bool, ∀ r, (keep r = true ↔ ¬ Linked hp pid r.id) := by
  classical
  exact ⟨fun r => decide (¬ Linked hp pid r.id), fun r => by simp⟩

theorem unhide_process_sublist {fuel : Nat} {pid rc : Int} {hp res : Registry}
    (h : unhide_process fuel pid hp = some (rc, res)) : res.Sublist hp := by
  obtain ⟨keep, hkeep⟩ := exists_keep pid hp
  rw [(unhide_process_result h keep (fun r _ => hkeep r)).2]
  exact List.filter_sublist hp

/-- A scan over records that have neither `pid` as id nor as parent passes them
all, with an explicit fuel bound. -/
theorem unhide_loop_passed (pid : Int) :
    ∀ (rest done : Registry) (fuel : Nat), Passed pid rest → rest.length < fuel →
      unhide_loop fuel pid done rest = some (done ++ rest) := by
  intro rest
  induction rest with
  | nil =>
    intro done fuel _ hf
    obtain ⟨f, rfl⟩ : ∃ f, fuel = f + 1 := ⟨fuel - 1, by omega⟩
    rw [unhide_loop_nil, List.append_nil]
  | cons p rest ih =>
    intro done fuel hp hf
    obtain ⟨f, rfl⟩ : ∃ f, fuel = f + 1 := ⟨fuel - 1, by simp at hf; omega⟩
    have hp1 := hp p (List.mem_cons_self _ _)
    rw [unhide_loop_skip _ _ _ _ _ hp1.1 hp1.2,
      ih _ f (fun r hr => hp r (List.mem_cons_of_mem _ hr)) (by simp at hf; omega)]
    simp

theorem hide_process_of_live {h : Host} {root : Int} {origin : task_struct} {ppid : Int}
    (hlive : names_live_process h root origin) (hpar : origin.real_parent = some ppid)
    (hp : Registry) :
    hide_process h root hp = (SUCCESS, travel_all_add_node origin ppid hp) := by
  obtain ⟨tmp, h1, h2, _⟩ := hlive
  simp [hide_process, h1, h2, hpar]

theorem demo_live : names_live_process demo_host 10 demo_root :=
  ⟨⟨10⟩, by decide, rfl, rfl⟩

theorem walk_records_head (t : task_struct) (parent : Int) :
    (⟨t.tgid, parent⟩ : pid_node_t) ∈ walk_records t parent := by
  cases t with
  | mk tgid rp cs => simp [walk_records, task_struct.tgid]

theorem subtree_tasks_self (t : task_struct) : t ∈ subtree_tasks t := by
  cases t with
  | mk tgid rp cs => simp [subtree_tasks]

theorem mem_walk_records_both :
    (∀ (t : task_struct) (parent : Int), ∀ r ∈ walk_records t parent,
      r = ⟨t.tgid, parent⟩ ∨
        ∃ n ∈ subtree_tasks t, ∃ c ∈ n.children, r = ⟨c.tgid, n.tgid⟩) ∧
    (∀ (cs : List task_struct) (tgid : Int), ∀ r ∈ children_records cs tgid,
      (∃ c ∈ cs, r = ⟨c.tgid, tgid⟩) ∨
        ∃ n ∈ children_tasks cs, ∃ c ∈ n.children, r = ⟨c.tgid, n.tgid⟩) := by
  apply task_ind
  · intro tgid rp cs ih parent r hr
    rw [walk_records, List.mem_cons] at hr
    rcases hr with h | h
    · exact Or.inl h
    · right
      rcases ih tgid r h with ⟨c, hc, hrc⟩ | ⟨n, hn, c, hc, hrc⟩
      · exact ⟨.mk tgid rp cs, subtree_tasks_self _, c, hc, hrc⟩
      · exact ⟨n, by rw [subtree_tasks]; exact List.mem_cons_of_mem _ hn, c, hc, hrc⟩
  · intro tgid r hr
    simp [children_records] at hr
  · intro c cs ihc ihcs tgid r hr
    rw [children_records, List.mem_append] at hr
    rcases hr with h | h
    · rcases ihc tgid r h with h1 | ⟨n, hn, d, hd, hrd⟩
      · exact Or.inl ⟨c, List.mem_cons_self _ _, h1⟩
      · exact Or.inr ⟨n, by rw [children_tasks]; exact List.mem_append_left _ hn, d, hd, hrd⟩
    · rcases ihcs tgid r h with ⟨d, hd, hrd⟩ | ⟨n, hn, d, hd, hrd⟩
      · exact Or.inl ⟨d, List.mem_cons_of_mem _ hd, hrd⟩
      · exact Or.inr ⟨n, by rw [children_tasks]; exact List.mem_append_right _ hn, d, hd, hrd⟩

theorem walk_records_linked_both :
    (∀ (t : task_struct) (parent : Int) (hp : Registry),
      (∀ q ∈ walk_records t parent, q ∈ hp) →
        ∀ r ∈ walk_records t parent, Linked hp t.tgid r.id) ∧
    (∀ (cs : List task_struct) (tgid : Int) (hp : Registry),
      (∀ q ∈ children_records cs tgid, q ∈ hp) →
        ∀ r ∈ children_records cs tgid, Linked hp tgid r.id) := by
  apply task_ind
  · intro tgid rp cs ih parent hp hsub r hr
    rw [walk_records] at hsub hr
    rcases List.mem_cons.1 hr with h | h
    · rw [h]; exact Linked.base
    · exact ih tgid hp (fun q hq => hsub q (List.mem_cons_of_mem _ hq)) r h
  · intro tgid hp _ r hr
    simp [children_records] at hr
  · intro c cs ihc ihcs tgid hp hsub r hr
    rw [children_records] at hsub hr
    rcases List.mem_append.1 hr with h | h
    · have hc : Linked hp tgid c.tgid :=
        Linked.of_parent (r := ⟨c.tgid, tgid⟩)
          (hsub _ (List.mem_append_left _ (walk_records_head c tgid))) rfl
      exact Linked.trans hc (ihc tgid hp (fun q hq => hsub q (List.mem_append_left _ hq)) r h)
    · exact ihcs tgid hp (fun q hq => hsub q (List.mem_append_right _ hq)) r h

theorem hide_process_fresh {h : Host} {root : Int} {origin : task_struct} {ppid : Int}
    (hlive : names_live_process h root origin) (hpar : origin.real_parent = some ppid)
    (hnd : (subtree_tgids origin).Nodup) :
    (hide_process h root []).2 = walk_records origin ppid := by
  rw [hide_process_of_live hlive hpar]
  simpa using travel_fresh_both.1 origin ppid [] (fun x _ => rfl) hnd

/-! ### The enumeration filter -/

theorem scan_find_ge_pid_spec (live : List Int) : is_find_ge_pid live (scan_find_ge_pid live) := by
  intro nr
  induction live with
  | nil => simp [scan_find_ge_pid]
  | cons w rest ih =>
    obtain ⟨ih1, ih2⟩ := ih
    rw [scan_find_ge_pid]
    cases hrec : scan_find_ge_pid rest nr with
    | none =>
      have hlt := ih2 hrec
      by_cases hw : nr ≤ w
      · simp only [hw, if_true]
        refine ⟨?_, by simp⟩
        intro pid hpid
        simp only [Option.some.injEq] at hpid
        subst hpid
        refine ⟨by simp, hw, ?_⟩
        intro v hv hnv
        rcases List.mem_cons.1 hv with h | h
        · exact h ▸ le_refl _
        · have := hlt v h; omega
      · simp only [hw, if_false]
        refine ⟨by simp, ?_⟩
        intro _ v hv
        rcases List.mem_cons.1 hv with h | h
        · rw [h]; omega
        · exact hlt v h
    | some q =>
      obtain ⟨hq1, hq2, hq3⟩ := ih1 q hrec
      by_cases hw : nr ≤ w ∧ w < q.nr
      · simp only [hw, and_self, if_true]
        refine ⟨?_, by simp⟩
        intro pid hpid
        simp only [Option.some.injEq] at hpid
        subst hpid
        refine ⟨by simp, hw.1, ?_⟩
        intro v hv hnv
        rcases List.mem_cons.1 hv with h | h
        · exact h ▸ le_refl _
        · have := hq3 v h hnv
          show w ≤ v
          omega
      · simp only [hw, if_false]
        refine ⟨?_, by simp⟩
        intro pid hpid
        simp only [Option.some.injEq] at hpid
        subst hpid
        refine ⟨List.mem_cons_of_mem _ hq1, hq2, ?_⟩
        intro v hv hnv
        rcases List.mem_cons.1 hv with h | h
        · subst h
          by_contra hc
          exact hw ⟨hnv, by omega⟩
        · exact hq3 v h hnv

theorem hook_find_ge_pid_loop_spec (live : List Int) (real : Int → Option struct_pid)
    (hp : Registry) (bound : Int) (hreal : is_find_ge_pid live real) :
    ∀ (fuel : Nat) (b : Int), (live.filter (fun w => decide (b ≤ w))).length < fuel →
      bound ≤ b → (∀ w ∈ live, bound ≤ w → w < b → is_hidden_proc hp w = true) →
      ∃ res, hook_find_ge_pid_loop real hp fuel (real b) = some res ∧
        is_next_visible live hp bound res := by
  intro fuel
  induction fuel with
  | zero => intro b hlen; simp at hlen
  | succ f ih =>
    intro b hlen hb hinv
    obtain ⟨hsome, hnone⟩ := hreal b
    cases hr : real b with
    | none =>
      refine ⟨none, by rw [hook_find_ge_pid_loop], by simp, ?_⟩
      intro _ w hw hbw
      exact hinv w hw hbw (hnone hr w hw)
    | some pid =>
      obtain ⟨hmem, hge, hleast⟩ := hsome pid hr
      rw [hook_find_ge_pid_loop]
      cases hh : is_hidden_proc hp pid.nr
      · refine ⟨some pid, by simp, ?_, by simp⟩
        intro q hq
        simp only [Option.some.injEq] at hq
        subst hq
        refine ⟨hmem, by omega, hh, ?_⟩
        intro w hw hbw hvis
        by_cases hwb : w < b
        · rw [hinv w hw hbw hwb] at hvis; cases hvis
        · exact hleast w hw (by omega)
      · simp only [if_true]
        apply ih (pid.nr + 1)
        · have hsub : (live.filter (fun w => decide (pid.nr + 1 ≤ w))).length
              < (live.filter (fun w => decide (b ≤ w))).length := by
            have hff : live.filter (fun w => decide (pid.nr + 1 ≤ w))
                = (live.filter (fun w => decide (b ≤ w))).filter
                    (fun w => decide (pid.nr + 1 ≤ w)) := by
              rw [List.filter_filter]
              apply List.filter_congr
              intro w _
              by_cases h1 : pid.nr + 1 ≤ w
              · have h2 : b ≤ w := by omega
                simp [h1, h2]
              · simp [h1]
            rw [hff, List.length_filter_lt_length_iff_exists]
            exact ⟨pid.nr, List.mem_filter.2 ⟨hmem, by simpa using hge⟩, by simp⟩
          omega
        · omega
        · intro w hw hbw hlt
          by_cases hwb : w < b
          · exact hinv w hw hbw hwb
          · have h1 := hleast w hw (by omega)
            have h2 : w = pid.nr := by omega
            rw [h2]; exact hh

/-! ### Facts about the walked tree -/

theorem subtree_tgids_eq_map_both :
    (∀ t : task_struct, subtree_tgids t = (subtree_tasks t).map task_struct.tgid) ∧
    (∀ cs : List task_struct, children_tgids cs = (children_tasks cs).map task_struct.tgid) := by
  apply task_ind
  · intro tgid rp cs ih
    simp [subtree_tgids, subtree_tasks, task_struct.tgid, ih]
  · simp [children_tgids, children_tasks]
  · intro c cs ihc ihcs
    simp [children_tgids, children_tasks, ihc, ihcs]

theorem child_mem_children_tasks {c : task_struct} {cs : List task_struct} (hc : c ∈ cs) :
    c ∈ children_tasks cs := by
  induction cs with
  | nil => cases hc
  | cons d cs ih =>
    rw [children_tasks]
    rcases List.mem_cons.1 hc with h | h
    · exact List.mem_append_left _ (h ▸ subtree_tasks_self c)
    · exact List.mem_append_right _ (ih h)

theorem child_mem_subtree_tasks {origin c : task_struct} (hc : c ∈ origin.children) :
    c ∈ subtree_tasks origin := by
  cases origin with
  | mk tgid rp cs =>
    rw [subtree_tasks]
    exact List.mem_cons_of_mem _ (child_mem_children_tasks hc)

theorem child_record_mem {c : task_struct} {cs : List task_struct} (tgid : Int) (hc : c ∈ cs) :
    (⟨c.tgid, tgid⟩ : pid_node_t) ∈ children_records cs tgid := by
  induction cs with
  | nil => cases hc
  | cons d cs ih =>
    rw [children_records]
    rcases List.mem_cons.1 hc with h | h
    · exact List.mem_append_left _ (h ▸ walk_records_head c tgid)
    · exact List.mem_append_right _ (ih h)

theorem child_record_mem_walk {origin c : task_struct} (parent : Int) (hc : c ∈ origin.children) :
    (⟨c.tgid, origin.tgid⟩ : pid_node_t) ∈ walk_records origin parent := by
  cases origin with
  | mk tgid rp cs =>
    rw [walk_records]
    exact List.mem_cons_of_mem _ (child_record_mem tgid hc)

theorem task_eq_of_tgid {origin a b : task_struct} (hnd : (subtree_tgids origin).Nodup)
    (ha : a ∈ subtree_tasks origin) (hb : b ∈ subtree_tasks origin) (hab : a.tgid = b.tgid) :
    a = b := by
  rw [subtree_tgids_eq_map_both.1] at hnd
  exact List.inj_on_of_nodup_map hnd ha hb hab

theorem tgid_mem_subtree {origin a : task_struct} (ha : a ∈ subtree_tasks origin) :
    a.tgid ∈ subtree_tgids origin := by
  rw [subtree_tgids_eq_map_both.1]
  exact List.mem_map_of_mem _ ha

/-- In a tree with pairwise distinct identifiers whose parent is outside, no
record of the walk has a childless task of the tree as its parent tag. -/
theorem walk_records_no_child_of_leaf {origin leaf : task_struct} {ppid : Int}
    (hnd : (subtree_tgids origin).Nodup) (hpp : ppid ∉ subtree_tgids origin)
    (hleaf : leaf ∈ subtree_tasks origin) (hnone : leaf.children = []) :
    ∀ r ∈ walk_records origin ppid, r.parent ≠ leaf.tgid := by
  intro r hr hpar
  rcases mem_walk_records_both.1 origin ppid r hr with h | ⟨n, hn, c, hc, h⟩
  · rw [h] at hpar
    have hpar2 : ppid = leaf.tgid := hpar
    exact hpp (hpar2 ▸ tgid_mem_subtree hleaf)
  · rw [h] at hpar
    have hpar2 : n.tgid = leaf.tgid := hpar
    have := task_eq_of_tgid hnd hn hleaf hpar2
    rw [this, hnone] at hc
    cases hc

theorem filter_ne_id_eq_erase (r0 : pid_node_t) :
    ∀ hp : Registry, (hp.map pid_node_t.id).Nodup → r0 ∈ hp →
      hp.filter (fun r => decide (r.id ≠ r0.id)) = hp.erase r0 := by
  intro hp
  induction hp with
  | nil => intro _ h; cases h
  | cons p hp ih =>
    intro hnd hmem
    rw [List.map_cons, List.nodup_cons] at hnd
    by_cases hp0 : p = r0
    · subst hp0
      rw [List.erase_cons_head, List.filter_cons]
      simp only [ne_eq, not_true_eq_false, decide_False, Bool.false_eq_true, if_false]
      rw [List.filter_eq_self]
      intro r hr
      have : r.id ≠ p.id := fun h => hnd.1 (h ▸ List.mem_map_of_mem _ hr)
      simpa using this
    · have hmem2 : r0 ∈ hp := by
        rcases List.mem_cons.1 hmem with h | h
        · exact absurd h.symm hp0
        · exact h
      have hne : p.id ≠ r0.id := fun h => hnd.1 (h ▸ List.mem_map_of_mem _ hmem2)
      rw [List.erase_cons_tail (by simpa using hp0), List.filter_cons, ← ih hnd.2 hmem2]
      simp [hne]

theorem is_hidden_proc_filter (hp : Registry) (keep : pid_node_t → Bool) (x : Int) :
    is_hidden_proc (hp.filter keep) x = true ↔ ∃ r ∈ hp, keep r = true ∧ r.id = x := by
  rw [is_hidden_proc_iff]
  simp [List.mem_filter, and_assoc]

/-! ### Facts about `hide_process` and the reachable registries -/

theorem hide_process_cases (h : Host) (pid : Int) :
    (∀ hp, (hide_process h pid hp).2 = hp) ∨
      ∃ origin ppid, ∀ hp, (hide_process h pid hp).2 = travel_all_add_node origin ppid hp := by
  cases h1 : h.find_get_pid pid with
  | none => exact Or.inl (fun hp => by simp [hide_process, h1])
  | some tmp =>
    cases h2 : h.pid_task tmp with
    | none => exact Or.inl (fun hp => by simp [hide_process, h1, h2])
    | some origin =>
      cases h3 : origin.real_parent with
      | none => exact Or.inl (fun hp => by simp [hide_process, h1, h2, h3])
      | some ppid => exact Or.inr ⟨origin, ppid, fun hp => by simp [hide_process, h1, h2, h3]⟩

theorem hide_process_twice (h : Host) (hp : Registry) (id : Int) :
    (hide_process h id (hide_process h id hp).2).2 = (hide_process h id hp).2 := by
  rcases hide_process_cases h id with hc | ⟨origin, ppid, hc⟩
  · rw [hc, hc]
  · rw [hc, hc]
    exact travel_fixed_both.1 origin ppid _ (travel_hides_both.1 origin ppid hp)

theorem hide_process_count (h : Host) (pid : Int) (hp : Registry) (x : Int)
    (hle : id_count hp x ≤ 1) : id_count (hide_process h pid hp).2 x ≤ 1 := by
  rcases hide_process_cases h pid with hc | ⟨origin, ppid, hc⟩
  · rw [hc]; exact hle
  · rw [hc]; exact (travel_count_both x).1 origin ppid hp hle

theorem reachable_nodup {hp : Registry} (hr : Reachable hp) : (hp.map pid_node_t.id).Nodup := by
  induction hr with
  | empty => simp
  | hide h pid hp _ ih =>
    rw [nodup_ids_iff] at ih ⊢
    exact fun x => hide_process_count h pid hp x (ih x)
  | unhide fuel pid rc hp res _ hun ih =>
    exact List.Nodup.sublist (List.Sublist.map _ (unhide_process_sublist hun)) ih

theorem hide_process_of_not_live (h : Host) (pid : Int) (hp : Registry)
    (hdead : is_live h pid = false) : (hide_process h pid hp).2 = hp := by
  unfold is_live at hdead
  cases h1 : h.find_get_pid pid with
  | none => simp [hide_process, h1]
  | some tmp =>
    rw [h1] at hdead
    cases h2 : h.pid_task tmp with
    | none => simp [hide_process, h1, h2]
    | some origin => simp [h2] at hdead

/-! ### The read path -/

theorem dec_digits_length : ∀ (fuel n k : Nat), n < 10 ^ k → 0 < k →
    (dec_digits fuel n).length ≤ k := by
  intro fuel
  induction fuel with
  | zero => intro n k _ _; simp [dec_digits]
  | succ f ih =>
    intro n k hn hk
    rw [dec_digits]
    by_cases h10 : n < 10
    · simp only [h10, if_true, List.length_singleton]; omega
    · simp only [h10, if_false, List.length_append, List.length_singleton]
      obtain ⟨j, rfl⟩ : ∃ j, k = j + 1 := ⟨k - 1, by omega⟩
      have hj : 0 < j := by
        rcases Nat.eq_zero_or_pos j with h | h
        · subst h; simp at hn; omega
        · exact h
      have hdiv : n / 10 < 10 ^ j := by
        rw [Nat.div_lt_iff_lt_mul (by decide)]
        rw [pow_succ] at hn
        exact hn
      have := ih (n / 10) j hdiv hj
      omega

theorem format_d_length_pid (v : Int) (h0 : 0 ≤ v) (h1 : v ≤ 4194304) :
    (format_d v).length ≤ 7 := by
  have hneg : ¬ v < 0 := by omega
  rw [format_d, if_neg hneg]
  apply dec_digits_length
  · have : v.natAbs ≤ 4194304 := by omega
    omega
  · decide

theorem sprintf_record (parent id : Int) :
    sprintf OUTPUT_BUFFER_FORMAT [parent, id] = record_line ⟨id, parent⟩ := rfl

theorem record_line_length (proc : pid_node_t) :
    (record_line proc).length = 19 + (format_d proc.parent).length + (format_d proc.id).length := by
  simp [record_line, ascii]
  omega

theorem device_read_loop_eq : ∀ (hp : Registry) (offset : Int) (user : List Nat),
    device_read_loop hp offset user
      = (offset + ((hp.map record_line).flatten.length : Nat), user ++ (hp.map record_line).flatten) := by
  intro hp
  induction hp with
  | nil => intro offset user; simp [device_read_loop]
  | cons p rest ih =>
    intro offset user
    rw [device_read_loop, ih, sprintf_record]
    have hp : (⟨p.id, p.parent⟩ : pid_node_t) = p := rfl
    rw [hp]
    simp only [List.map_cons, List.flatten_cons, List.length_append, List.append_assoc,
      Prod.mk.injEq, and_true]
    push_cast
    omega

/-! ### The integer scan -/

theorem isdigit_of_isspace {c : Nat} (h : isspace c = true) : isdigit c = false := by
  simp only [isspace, isdigit, decide_eq_true_eq, decide_eq_false_iff_not] at h ⊢
  omega

theorem skip_spaces_append (ws s : List Nat) (hws : ∀ c ∈ ws, isspace c = true) :
    skip_spaces (ws ++ s) = skip_spaces s := by
  induction ws with
  | nil => rfl
  | cons c ws ih =>
    rw [List.cons_append, skip_spaces, if_pos (hws c (List.mem_cons_self _ _)),
      ih (fun d hd => hws d (List.mem_cons_of_mem _ hd))]

theorem skip_spaces_cons_of_not {c : Nat} (s : List Nat) (h : isspace c = false) :
    skip_spaces (c :: s) = c :: s := by
  rw [skip_spaces, if_neg (by simp [h])]

theorem parse_integer_append (follow : List Nat)
    (hfollow : ∀ c rest, follow = c :: rest → isdigit c = false) :
    ∀ (ds : List Nat) (acc : Nat), (∀ c ∈ ds, isdigit c = true) →
      parse_integer (ds ++ follow) acc = ((parse_integer ds acc).1, follow) := by
  intro ds
  induction ds with
  | nil =>
    intro acc _
    cases follow with
    | nil => rfl
    | cons c rest =>
      simp [parse_integer, hfollow c rest rfl]
  | cons d ds ih =>
    intro acc hds
    have hd := hds d (List.mem_cons_self _ _)
    rw [List.cons_append, parse_integer, if_pos hd,
      ih _ (fun c hc => hds c (List.mem_cons_of_mem _ hc))]
    conv_rhs => rw [parse_integer, if_pos hd]

theorem sscanf_ld_n_token (ws ds follow : List Nat) (ht : is_token (ws, ds))
    (hfollow : ∀ c rest, follow = c :: rest → isdigit c = false) :
    sscanf_ld_n (ws ++ (ds ++ follow))
      = some (to_long (decimal_value ds), ws.length + ds.length) := by
  obtain ⟨hws, hne, hds⟩ := ht
  cases ds with
  | nil => exact absurd rfl hne
  | cons d ds =>
    have hd : isdigit d = true := hds d (List.mem_cons_self _ _)
    have hnsp : isspace d = false := by
      cases hsp : isspace d
      · rfl
      · rw [isdigit_of_isspace hsp] at hd; cases hd
    have h45 : d ≠ 45 := by
      intro h
      rw [h] at hd
      exact absurd hd (by decide)
    have hparse := parse_integer_append follow hfollow (d :: ds) 0 hds
    rw [List.cons_append] at hparse
    simp only [sscanf_ld_n, skip_spaces_append ws _ hws, List.cons_append,
      skip_spaces_cons_of_not _ hnsp, if_neg h45, hd, if_true, hparse, decimal_value]
    simp only [List.length_append, List.length_cons, Option.some.injEq, Prod.mk.injEq, true_and]
    omega

theorem isdigit_head_of_sscanf_none {c : Nat} {s : List Nat} (h : sscanf_ld_n (c :: s) = none) :
    isdigit c = false := by
  cases hd : isdigit c
  · rfl
  · exfalso
    have hnsp : isspace c = false := by
      cases hsp : isspace c
      · rfl
      · rw [isdigit_of_isspace hsp] at hd; cases hd
    have h45 : c ≠ 45 := by
      intro h45
      rw [h45] at hd
      exact absurd hd (by decide)
    simp [sscanf_ld_n, skip_spaces_cons_of_not _ hnsp, h45, hd] at h

theorem to_pid_t_to_long (x : Int) : to_pid_t (to_long x) = to_pid_t x := by
  simp only [to_pid_t, to_long]
  norm_num
  omega

/-! ### The request loops -/

theorem follow_not_digit (rest : List (List Nat × List Nat)) (tail0 : List Nat)
    (htail : sscanf_ld_n tail0 = none) (hrest : ∀ t ∈ rest, is_token t ∧ t.1 ≠ []) :
    ∀ c s, render_tokens rest ++ tail0 = c :: s → isdigit c = false := by
  intro c s heq
  cases rest with
  | nil =>
    rw [render_tokens, List.nil_append] at heq
    rw [heq] at htail
    exact isdigit_head_of_sscanf_none htail
  | cons u rest =>
    obtain ⟨⟨hws, _, _⟩, hne⟩ := hrest u (List.mem_cons_self _ _)
    rw [render_tokens] at heq
    cases hu : u.1 with
    | nil => exact absurd hu hne
    | cons w ws =>
      rw [hu] at heq
      simp only [List.cons_append, List.cons.injEq] at heq
      rw [← heq.1]
      exact isdigit_of_isspace (hws w (by rw [hu]; exact List.mem_cons_self _ _))

theorem request_loop_tokens (act : Int → Registry → Option Registry) (tail0 : List Nat)
    (htail : sscanf_ld_n tail0 = none) (hne : tail0 ≠ []) :
    ∀ (toks : List (List Nat × List Nat)) (pre : List Nat) (fuel : Nat) (hp : Registry),
      (∀ t ∈ toks, is_token t) → (∀ t ∈ toks.tail, t.1 ≠ []) → toks.length < fuel →
      request_loop sscanf_ld_n act (pre ++ (render_tokens toks ++ tail0)) fuel pre.length hp
        = match request_fold act (token_values toks) hp with
          | some res => .ok res
          | none => .out_of_fuel := by
  intro toks
  induction toks with
  | nil =>
    intro pre fuel hp _ _ hfuel
    obtain ⟨f, rfl⟩ : ∃ f, fuel = f + 1 := ⟨fuel - 1, by simp at hfuel; omega⟩
    have hlen : pre.length < (pre ++ ([] ++ tail0)).length := by
      have := List.length_pos.2 hne
      simp; omega
    rw [render_tokens, request_loop, if_pos hlen, List.drop_left, List.nil_append, htail]
    rfl
  | cons t rest ih =>
    intro pre fuel hp htok hsep hfuel
    obtain ⟨f, rfl⟩ : ∃ f, fuel = f + 1 := ⟨fuel - 1, by simp at hfuel; omega⟩
    have hrest : ∀ u ∈ rest, is_token u ∧ u.1 ≠ [] :=
      fun u hu => ⟨htok u (List.mem_cons_of_mem _ hu), hsep u hu⟩
    have hfollow := follow_not_digit rest tail0 htail hrest
    have hmsg : pre ++ (render_tokens (t :: rest) ++ tail0)
        = pre ++ (t.1 ++ (t.2 ++ (render_tokens rest ++ tail0))) := by
      simp [render_tokens, List.append_assoc]
    have hmsg2 : pre ++ (t.1 ++ (t.2 ++ (render_tokens rest ++ tail0)))
        = (pre ++ (t.1 ++ t.2)) ++ (render_tokens rest ++ tail0) := by
      simp [List.append_assoc]
    have hlen : pre.length < (pre ++ (t.1 ++ (t.2 ++ (render_tokens rest ++ tail0)))).length := by
      have := List.length_pos.2 hne
      simp; omega
    have hcut : pre.length + (t.1.length + t.2.length) = (pre ++ (t.1 ++ t.2)).length := by
      simp
    rw [hmsg, request_loop, if_pos hlen, List.drop_left,
      sscanf_ld_n_token t.1 t.2 _ (htok t (List.mem_cons_self _ _)) hfollow]
    simp only [to_pid_t_to_long, token_values, List.map_cons, request_fold]
    cases hact : act (to_pid_t (decimal_value t.2 : Int)) hp with
    | none => rfl
    | some hp2 =>
      simp only []
      rw [hcut, hmsg2]
      exact ih (pre ++ (t.1 ++ t.2)) f hp2 (fun u hu => htok u (List.mem_cons_of_mem _ hu))
        (fun u hu => hsep u (List.mem_of_mem_tail hu)) (by simp at hfuel; omega)

theorem request_fold_hide (h : Host) : ∀ (pids : List Int) (hp : Registry),
    request_fold (fun pid hp => some (hide_process h pid hp).2) pids hp
      = some (device_write_add h pids hp) := by
  intro pids
  induction pids with
  | nil => intro hp; rfl
  | cons pid rest ih => intro hp; rw [request_fold, device_write_add]; exact ih _

theorem request_fold_unhide (fuel : Nat) : ∀ (pids : List Int) (hp : Registry),
    request_fold (fun pid hp => (unhide_process fuel pid hp).map Prod.snd) pids hp
      = device_write_del fuel pids hp := by
  intro pids
  induction pids with
  | nil => intro hp; rfl
  | cons pid rest ih =>
    intro hp
    rw [request_fold, device_write_del]
    cases hu : unhide_process fuel (to_pid_t pid) hp with
    | none => rfl
    | some r => exact ih _

/-! ### The write path -/

theorem device_write_del_terminates : ∀ (pids : List Int) (hp : Registry),
    ∃ N, ∀ fuel, N ≤ fuel → ∃ res, device_write_del fuel pids hp = some res := by
  intro pids
  induction pids with
  | nil => intro hp; exact ⟨0, fun fuel _ => ⟨hp, rfl⟩⟩
  | cons pid rest ih =>
    intro hp
    obtain ⟨keep, hkeep⟩ := exists_keep (to_pid_t pid) hp
    obtain ⟨N1, hN1⟩ := unhide_process_filter (to_pid_t pid) hp
    obtain ⟨N2, hN2⟩ := ih (hp.filter keep)
    refine ⟨max N1 N2, fun fuel hfuel => ?_⟩
    obtain ⟨res, hres⟩ := hN2 fuel (le_trans (le_max_right _ _) hfuel)
    refine ⟨res, ?_⟩
    rw [device_write_del, hN1 fuel (le_trans (le_max_left _ _) hfuel) keep (fun r _ => hkeep r)]
    exact hres

theorem take_three_append (buffer : List Nat) (h : 3 ≤ buffer.length) :
    (buffer ++ [0]).take 3 = buffer.take 3 :=
  List.take_append_of_le_length h

theorem device_write_add_branch (sscanf : List Nat → Option (Int × Nat)) (h : Host)
    (fuel : Nat) (buffer : List Nat) (offset : Int) (hp : Registry)
    (hadd : buffer.take 3 = ascii "add") :
    device_write sscanf h fuel buffer offset hp
      = match request_loop sscanf (fun pid hp => some (hide_process h pid hp).2)
            (buffer ++ [0]) fuel 4 hp with
        | .ok res => .ok (buffer.length, buffer.length, res)
        | .out_of_bounds => .out_of_bounds
        | .out_of_fuel => .out_of_fuel := by
  have hlen : 3 ≤ buffer.length := by
    have := congrArg List.length hadd
    simp [ascii] at this
    omega
  have h1 : ¬ (buffer.length < add_message.length - 1 ∧
      buffer.length < del_message.length - 1) := by
    simp [add_message, ascii]; omega
  have h2 : (buffer ++ [0]).take (add_message.length - 1)
      = add_message.take (add_message.length - 1) := by
    have : add_message.length - 1 = 3 := by decide
    rw [this, take_three_append _ hlen, hadd]
    decide
  rw [device_write, if_neg h1, if_pos h2]
  rfl

theorem device_write_del_branch (sscanf : List Nat → Option (Int × Nat)) (h : Host)
    (fuel : Nat) (buffer : List Nat) (offset : Int) (hp : Registry)
    (hdel : buffer.take 3 = ascii "del") :
    device_write sscanf h fuel buffer offset hp
      = match request_loop sscanf (fun pid hp => (unhide_process fuel pid hp).map Prod.snd)
            (buffer ++ [0]) fuel 4 hp with
        | .ok res => .ok (buffer.length, buffer.length, res)
        | .out_of_bounds => .out_of_bounds
        | .out_of_fuel => .out_of_fuel := by
  have hlen : 3 ≤ buffer.length := by
    have := congrArg List.length hdel
    simp [ascii] at this
    omega
  have h1 : ¬ (buffer.length < add_message.length - 1 ∧
      buffer.length < del_message.length - 1) := by
    simp [add_message, ascii]; omega
  have h2 : ¬ (buffer ++ [0]).take (add_message.length - 1)
      = add_message.take (add_message.length - 1) := by
    have : add_message.length - 1 = 3 := by decide
    rw [this, take_three_append _ hlen, hdel]
    decide
  have h3 : (buffer ++ [0]).take (del_message.length - 1)
      = del_message.take (del_message.length - 1) := by
    have : del_message.length - 1 = 3 := by decide
    rw [this, take_three_append _ hlen, hdel]
    decide
  rw [device_write, if_neg h1, if_neg h2, if_pos h3]
  rfl

theorem request_message (cmd : List Nat) (sep : Nat) (body : List Nat) :
    (cmd ++ sep :: body) ++ [0] = (cmd ++ [sep]) ++ (body ++ [0]) := by
  simp

theorem skip_spaces_zero (s : List Nat) : ∃ s2, skip_spaces (s ++ [0]) = s2 ++ [0] := by
  induction s with
  | nil => exact ⟨[], by simp [skip_spaces, isspace]⟩
  | cons c s ih =>
    rw [List.cons_append, skip_spaces]
    by_cases hc : isspace c = true
    · rw [if_pos hc]; exact ih
    · rw [if_neg hc]; exact ⟨c :: s, rfl⟩

theorem parse_integer_zero : ∀ (s : List Nat) (acc : Nat),
    ∃ s2, (parse_integer (s ++ [0]) acc).2 = s2 ++ [0] := by
  intro s
  induction s with
  | nil => intro acc; exact ⟨[], by simp [parse_integer, isdigit]⟩
  | cons c s ih =>
    intro acc
    rw [List.cons_append, parse_integer]
    by_cases hc : isdigit c = true
    · rw [if_pos hc]; exact ih _
    · rw [if_neg hc]; exact ⟨c :: s, rfl⟩

theorem sscanf_ld_n_length_le (s : List Nat) (v : Int) (n : Nat)
    (h : sscanf_ld_n (s ++ [0]) = some (v, n)) : n ≤ s.length := by
  obtain ⟨s2, hs2⟩ := skip_spaces_zero s
  rw [sscanf_ld_n, hs2] at h
  cases s2 with
  | nil => simp [isdigit] at h
  | cons c rest =>
    rw [List.cons_append] at h
    simp only [] at h
    by_cases h45 : c = 45
    · rw [if_pos h45] at h
      cases rest with
      | nil => simp [isdigit] at h
      | cons d rest2 =>
        obtain ⟨s3, hs3⟩ := parse_integer_zero (d :: rest2) 0
        simp only [List.cons_append] at h hs3
        by_cases hd : isdigit d = true
        · rw [if_pos hd] at h
          simp only [Option.some.injEq, Prod.mk.injEq] at h
          rw [← h.2, hs3]
          simp
        · rw [if_neg hd] at h; cases h
    · rw [if_neg h45] at h
      obtain ⟨s3, hs3⟩ := parse_integer_zero (c :: rest) 0
      simp only [List.cons_append] at hs3
      by_cases hd : isdigit c = true
      · rw [if_pos hd] at h
        simp only [Option.some.injEq, Prod.mk.injEq] at h
        rw [← h.2, hs3]
        simp
      · rw [if_neg hd] at h; cases h

theorem request_loop_in_bounds (act : Int → Registry → Option Registry) (buffer : List Nat) :
    ∀ (fuel cut : Nat) (hp : Registry), cut ≤ buffer.length →
      request_loop sscanf_ld_n act (buffer ++ [0]) fuel cut hp ≠ .out_of_bounds := by
  intro fuel
  induction fuel with
  | zero => intro cut hp _; simp [request_loop]
  | succ f ih =>
    intro cut hp hcut
    have hlt : cut < (buffer ++ [0]).length := by simp; omega
    rw [request_loop, if_pos hlt, List.drop_append_of_le_length hcut]
    cases hs : sscanf_ld_n (buffer.drop cut ++ [0]) with
    | none => simp
    | some r =>
      obtain ⟨pid, n⟩ := r
      have hn := sscanf_ld_n_length_le _ _ _ hs
      simp only []
      cases act (to_pid_t pid) hp with
      | none => simp
      | some hp2 =>
        simp only []
        exact ih _ _ (by simp at hn; omega)

/-! ### Termination of the enumeration filter -/

theorem hook_find_ge_pid_loop_terminates (live : List Int) (real : Int → Option struct_pid)
    (hp : Registry) (hreal : ∀ nr pid, real nr = some pid → nr ≤ pid.nr ∧ pid.nr ∈ live) :
    ∀ (fuel : Nat) (b : Int), (live.filter (fun w => decide (b ≤ w))).length < fuel →
      ∃ res, hook_find_ge_pid_loop real hp fuel (real b) = some res := by
  intro fuel
  induction fuel with
  | zero => intro b hlen; simp at hlen
  | succ f ih =>
    intro b hlen
    cases hr : real b with
    | none => exact ⟨none, by rw [hook_find_ge_pid_loop]⟩
    | some pid =>
      obtain ⟨hge, hmem⟩ := hreal b pid hr
      rw [hook_find_ge_pid_loop]
      cases hh : is_hidden_proc hp pid.nr
      · exact ⟨some pid, by simp⟩
      · simp only [if_true]
        apply ih (pid.nr + 1)
        have hsub : (live.filter (fun w => decide (pid.nr + 1 ≤ w))).length
            < (live.filter (fun w => decide (b ≤ w))).length := by
          have hff : live.filter (fun w => decide (pid.nr + 1 ≤ w))
              = (live.filter (fun w => decide (b ≤ w))).filter
                  (fun w => decide (pid.nr + 1 ≤ w)) := by
            rw [List.filter_filter]
            apply List.filter_congr
            intro w _
            by_cases h1 : pid.nr + 1 ≤ w
            · have h2 : b ≤ w := by omega
              simp [h1, h2]
            · simp [h1]
          rw [hff, List.length_filter_lt_length_iff_exists]
          exact ⟨pid.nr, List.mem_filter.2 ⟨hmem, by simpa using hge⟩, by simp⟩
        omega

theorem Linked.closed {hp : Registry} {pid x : Int} (S : Int → Prop) (hbase : S pid)
    (hstep : ∀ r ∈ hp, S r.parent → S r.id) (h : Linked hp pid x) : S x := by
  induction h with
  | base => exact hbase
  | step r y _ hr hy ih => exact hstep r hr (hy ▸ ih)

/-! ### Bounds of the scan cursor -/

theorem device_write_in_bounds (h : Host) (fuel : Nat) (buffer : List Nat) (offset : Int)
    (hp : Registry) (hlen : 4 ≤ buffer.length) :
    device_write sscanf_ld_n h fuel buffer offset hp ≠ .out_of_bounds := by
  by_cases hadd : buffer.take 3 = ascii "add"
  · rw [device_write_add_branch _ _ _ _ _ _ hadd]
    have := request_loop_in_bounds (fun pid hp => some (hide_process h pid hp).2) buffer
      fuel 4 hp hlen
    cases hr : request_loop sscanf_ld_n (fun pid hp => some (hide_process h pid hp).2)
        (buffer ++ [0]) fuel 4 hp with
    | ok res => simp
    | out_of_bounds => exact absurd hr this
    | out_of_fuel => simp
  · by_cases hdel : buffer.take 3 = ascii "del"
    · rw [device_write_del_branch _ _ _ _ _ _ hdel]
      have := request_loop_in_bounds
        (fun pid hp => (unhide_process fuel pid hp).map Prod.snd) buffer fuel 4 hp hlen
      cases hr : request_loop sscanf_ld_n
          (fun pid hp => (unhide_process fuel pid hp).map Prod.snd) (buffer ++ [0]) fuel 4 hp with
      | ok res => simp
      | out_of_bounds => exact absurd hr this
      | out_of_fuel => simp
    · have hrej : device_write sscanf_ld_n h fuel buffer offset hp
          = .ok (-EAGAIN, offset, hp) := by
        rw [device_write]
        have h3 : 3 ≤ buffer.length := by omega
        have ha : add_message.length - 1 = 3 := by decide
        have hd : del_message.length - 1 = 3 := by decide
        have hat : add_message.take 3 = ascii "add" := by decide
        have hdt : del_message.take 3 = ascii "del" := by decide
        rw [if_neg (by simp [add_message, del_message, ascii]; omega), ha, hd,
          take_three_append _ h3, hat, hdt, if_neg hadd, if_neg hdel]
      rw [hrej]
      simp

/-! ## The claims -/

/-- Claim C1 (subtree concealment).  For every registry and every live process
tree: when `root` names a live process `origin` that has an OS parent, after
`hide_process(root)` the test `is_hidden_proc` is true for `root` and for the
identifier of every task of the subtree of `origin`. -/
theorem hide_process_conceals_subtree (h : Host) (hp : Registry) (root : Int)
    (origin : task_struct) (ppid : Int) (hlive : names_live_process h root origin)
    (hpar : origin.real_parent = some ppid) :
    is_hidden_proc (hide_process h root hp).2 root = true ∧
      ∀ x ∈ subtree_tgids origin, is_hidden_proc (hide_process h root hp).2 x = true := by
  rw [hide_process_of_live hlive hpar]
  have hall := travel_hides_both.1 origin ppid hp
  refine ⟨hall root ?_, hall⟩
  obtain ⟨_, _, _, h3⟩ := hlive
  cases origin with
  | mk tgid rp cs => simp [subtree_tgids, task_struct.tgid] at h3 ⊢; exact Or.inl h3.symm

/-- The example tree meets the hypotheses, and its four tasks end up hidden. -/
theorem hide_process_conceals_subtree_witness :
    names_live_process demo_host 10 demo_root ∧ demo_root.real_parent = some 1 ∧
      is_hidden_proc (hide_process demo_host 10 []).2 10 = true ∧
      ∀ x ∈ [10, 11, 13, 12], is_hidden_proc (hide_process demo_host 10 []).2 x = true :=
  ⟨demo_live, rfl, hide_process_conceals_subtree demo_host [] 10 demo_root 1 demo_live rfl⟩

/-- Claim C2 fails as stated.  In the example tree (root 10 under parent 1,
children 11 and 12, grandchild 13 under 11), starting from the empty registry,
`hide_process(10)` leaves the records (10,1), (11,10), (13,11), (12,10): the
record of 13 carries the parent 11, so not every record carries the parent 1. -/
theorem hide_process_same_parent_counterexample :
    names_live_process demo_host 10 demo_root ∧ demo_root.real_parent = some 1 ∧
      (hide_process demo_host 10 []).2 = [⟨10, 1⟩, ⟨11, 10⟩, ⟨13, 11⟩, ⟨12, 10⟩] ∧
      ¬ (∀ r ∈ (hide_process demo_host 10 []).2, r.parent = 1) :=
  ⟨demo_live, rfl, by decide, by decide⟩

/-- Claim C2, amended.  The records created by one `hide_process(root)` call
are appended to the registry, and each of them is either the record of `root`
tagged with the identifier of the OS parent of `root`, or the record of a child
`c` of some task `t` of the subtree, tagged with the identifier of `t`, its
direct parent in the live tree. -/
theorem hide_process_parent_tag (h : Host) (hp : Registry) (root : Int)
    (origin : task_struct) (ppid : Int) (hlive : names_live_process h root origin)
    (hpar : origin.real_parent = some ppid) :
    ∃ new, (hide_process h root hp).2 = hp ++ new ∧
      ∀ r ∈ new, r = ⟨root, ppid⟩ ∨
        ∃ t ∈ subtree_tasks origin, ∃ c ∈ t.children, r = ⟨c.tgid, t.tgid⟩ := by
  rw [hide_process_of_live hlive hpar]
  obtain ⟨new, hnew, hsub⟩ := travel_extends_both.1 origin ppid hp
  obtain ⟨_, _, _, h3⟩ := hlive
  refine ⟨new, hnew, fun r hr => ?_⟩
  rw [← h3]
  exact mem_walk_records_both.1 origin ppid r (hsub r hr)

/-- The example tree, hidden into a registry that already holds a record of
12. -/
theorem hide_process_parent_tag_witness :
    names_live_process demo_host 10 demo_root ∧ demo_root.real_parent = some 1 ∧
      ∃ new, (hide_process demo_host 10 [⟨12, 7⟩]).2 = [⟨12, 7⟩] ++ new ∧
        ∀ r ∈ new, r = ⟨10, 1⟩ ∨
          ∃ t ∈ subtree_tasks demo_root, ∃ c ∈ t.children, r = ⟨c.tgid, t.tgid⟩ :=
  ⟨demo_live, rfl, hide_process_parent_tag demo_host [⟨12, 7⟩] 10 demo_root 1 demo_live rfl⟩

/-- Claim C3 (transitive unhide round trip).  For every live process tree with
pairwise distinct identifiers and every live `root` with an OS parent, starting
from the empty registry, `hide_process(root)` followed by `unhide_process(root)`
returns `SUCCESS` with the empty registry, for every large enough fuel. -/
theorem hide_then_unhide_empties (h : Host) (root : Int) (origin : task_struct) (ppid : Int)
    (hlive : names_live_process h root origin) (hpar : origin.real_parent = some ppid)
    (hnd : (subtree_tgids origin).Nodup) :
    ∃ N, ∀ fuel, N ≤ fuel →
      unhide_process fuel root (hide_process h root []).2 = some (SUCCESS, []) := by
  rw [hide_process_fresh hlive hpar hnd]
  obtain ⟨N, hN⟩ := unhide_process_filter root (walk_records origin ppid)
  refine ⟨N, fun fuel hfuel => ?_⟩
  have hroot : origin.tgid = root := by obtain ⟨_, _, _, h3⟩ := hlive; exact h3
  have := hN fuel hfuel (fun _ => false) (fun r hr => by
    have hl := walk_records_linked_both.1 origin ppid _ (fun q hq => hq) r hr
    rw [hroot] at hl
    simp [hl])
  simpa using this

/-- The round trip on the example tree. -/
theorem hide_then_unhide_empties_witness :
    names_live_process demo_host 10 demo_root ∧ demo_root.real_parent = some 1 ∧
      (subtree_tgids demo_root).Nodup ∧
      ∃ N, ∀ fuel, N ≤ fuel →
        unhide_process fuel 10 (hide_process demo_host 10 []).2 = some (SUCCESS, []) :=
  ⟨demo_live, rfl, by decide,
    hide_then_unhide_empties demo_host 10 demo_root 1 demo_live rfl (by decide)⟩

/-- Claim C4 (enumeration skip).  For every finite list of live identifiers,
every registry and every bound, when the original primitive returns the least
live identifier at or above its argument (or null), `hook_find_ge_pid(bound)`
returns, once the fuel exceeds the number of live identifiers, the least live
identifier at or above `bound` that is not hidden, or null when there is
none. -/
theorem hook_find_ge_pid_next_visible (live : List Int)
    (real_find_ge_pid : Int → Option struct_pid) (hidden_proc : Registry) (bound : Int)
    (hreal : is_find_ge_pid live real_find_ge_pid) :
    ∀ fuel, live.length < fuel →
      ∃ res, hook_find_ge_pid real_find_ge_pid hidden_proc fuel bound = some res ∧
        is_next_visible live hidden_proc bound res := by
  intro fuel hfuel
  rw [hook_find_ge_pid]
  refine hook_find_ge_pid_loop_spec live real_find_ge_pid hidden_proc bound hreal fuel bound
    (lt_of_le_of_lt (List.length_filter_le _ _) hfuel) (le_refl _) ?_
  intro w _ h1 h2
  omega

/-- The enumeration example: 1 to 10 live, 5 to 7 hidden; the bounds 4, 5, 9,
10 and 11 give 4, 8, 9, 10 and null. -/
theorem hook_find_ge_pid_next_visible_witness :
    is_find_ge_pid demo_live_ids (scan_find_ge_pid demo_live_ids) ∧
      (∃ res, hook_find_ge_pid (scan_find_ge_pid demo_live_ids) demo_hidden 11 5 = some res ∧
        is_next_visible demo_live_ids demo_hidden 5 res) ∧
      hook_find_ge_pid (scan_find_ge_pid demo_live_ids) demo_hidden 11 4 = some (some ⟨4⟩) ∧
      hook_find_ge_pid (scan_find_ge_pid demo_live_ids) demo_hidden 11 5 = some (some ⟨8⟩) ∧
      hook_find_ge_pid (scan_find_ge_pid demo_live_ids) demo_hidden 11 9 = some (some ⟨9⟩) ∧
      hook_find_ge_pid (scan_find_ge_pid demo_live_ids) demo_hidden 11 10 = some (some ⟨10⟩) ∧
      hook_find_ge_pid (scan_find_ge_pid demo_live_ids) demo_hidden 11 11 = some none :=
  ⟨scan_find_ge_pid_spec demo_live_ids,
    hook_find_ge_pid_next_visible demo_live_ids (scan_find_ge_pid demo_live_ids) demo_hidden 5
      (scan_find_ge_pid_spec demo_live_ids) 11 (by decide),
    by decide, by decide, by decide, by decide, by decide⟩

/-- Claim C5 fails as stated.  After `hide_process(10)` on the example tree no
record has the id 1, yet `unhide_process(1)` empties the registry: the record of
10 carries the parent 1 and is removed with everything linked to it. -/
theorem unhide_absent_id_counterexample :
    (∀ r ∈ (hide_process demo_host 10 []).2, r.id ≠ 1) ∧
      unhide_process 12 1 (hide_process demo_host 10 []).2 = some (SUCCESS, []) ∧
      (hide_process demo_host 10 []).2 ≠ [] := by
  decide

/-- Claim C5, amended.  For every registry and every identifier `id` that is
neither the id nor the parent of any record, `unhide_process(id)` returns
`SUCCESS` and the registry unchanged, for every fuel above the length of the
registry. -/
theorem unhide_process_unlinked_id (id : Int) (hidden_proc : Registry)
    (hid : ∀ r ∈ hidden_proc, r.id ≠ id) (hparent : ∀ r ∈ hidden_proc, r.parent ≠ id) :
    ∀ fuel, hidden_proc.length < fuel →
      unhide_process fuel id hidden_proc = some (SUCCESS, hidden_proc) := by
  intro fuel hfuel
  rw [unhide_process,
    unhide_loop_passed id hidden_proc [] fuel (fun r hr => ⟨hid r hr, hparent r hr⟩) hfuel]
  rfl

/-- The identifier 999 is neither an id nor a parent in the example registry,
and unhiding it changes nothing. -/
theorem unhide_process_unlinked_id_witness :
    (∀ r ∈ (hide_process demo_host 10 []).2, r.id ≠ 999) ∧
      (∀ r ∈ (hide_process demo_host 10 []).2, r.parent ≠ 999) ∧
      unhide_process 5 999 (hide_process demo_host 10 []).2
        = some (SUCCESS, (hide_process demo_host 10 []).2) :=
  ⟨by decide, by decide,
    unhide_process_unlinked_id 999 (hide_process demo_host 10 []).2 (by decide) (by decide) 5
      (by decide)⟩

/-- Claim C6 (unhide drains the linked set).  For every registry and every
identifier `id`, with enough fuel `unhide_process(id)` returns `SUCCESS` and a
registry in which no record has the id `id`, none has the parent `id`, none is
linked to `id` by a chain of parent values through records of the original
registry, and none has a parent equal to the id of a removed record. -/
theorem unhide_process_drains (id : Int) (hidden_proc : Registry) :
    ∃ N, ∀ fuel, N ≤ fuel →
      ∃ res, unhide_process fuel id hidden_proc = some (SUCCESS, res) ∧
        ∀ r ∈ res, r.id ≠ id ∧ r.parent ≠ id ∧ ¬ Linked hidden_proc id r.id ∧
          ∀ q ∈ hidden_proc, q ∉ res → r.parent ≠ q.id := by
  obtain ⟨keep, hkeep⟩ := exists_keep id hidden_proc
  obtain ⟨N, hN⟩ := unhide_process_filter id hidden_proc
  refine ⟨N, fun fuel hfuel =>
    ⟨hidden_proc.filter keep, hN fuel hfuel keep (fun r _ => hkeep r), ?_⟩⟩
  intro r hr
  obtain ⟨hmem, hk⟩ := List.mem_filter.1 hr
  have hnl := (hkeep r).1 hk
  refine ⟨fun h => hnl (h ▸ Linked.base), fun h => hnl (Linked.of_parent hmem h), hnl, ?_⟩
  intro q hq hqres hpar
  have hql : Linked hidden_proc id q.id := by
    by_contra hc
    exact hqres (List.mem_filter.2 ⟨hq, (hkeep q).2 hc⟩)
  exact hnl (Linked.step r q.id hql hmem hpar)

/-- Unhiding 2 in a registry with a parent cycle and a duplicate id leaves the
two records that are not linked to 2. -/
theorem unhide_process_drains_witness :
    (∃ N, ∀ fuel, N ≤ fuel →
      ∃ res, unhide_process fuel 2 demo_tangled = some (SUCCESS, res) ∧
        ∀ r ∈ res, r.id ≠ 2 ∧ r.parent ≠ 2 ∧ ¬ Linked demo_tangled 2 r.id ∧
          ∀ q ∈ demo_tangled, q ∉ res → r.parent ≠ q.id) ∧
      unhide_process 12 2 demo_tangled = some (SUCCESS, [⟨3, 3⟩, ⟨5, 3⟩]) :=
  ⟨unhide_process_drains 2 demo_tangled, by decide⟩

/-- Claim C7 (idempotent hide).  For every registry the module can be in,
every live process tree and every identifier `id` that names a live process
(every task the kernel hands out has a `real_parent`, here `ppid`), two
`hide_process(id)` calls in a row, over the same tree, leave the same registry
as one call, and that registry holds exactly one record whose id is `id`. -/
theorem hide_process_idempotent (h : Host) (hidden_proc : Registry) (id : Int)
    (origin : task_struct) (ppid : Int) (hreach : Reachable hidden_proc)
    (hlive : names_live_process h id origin) (hpar : origin.real_parent = some ppid) :
    (hide_process h id (hide_process h id hidden_proc).2).2 = (hide_process h id hidden_proc).2 ∧
      id_count (hide_process h id hidden_proc).2 id = 1 := by
  refine ⟨hide_process_twice h hidden_proc id, ?_⟩
  have hroot : origin.tgid = id := by obtain ⟨_, _, _, h3⟩ := hlive; exact h3
  have hmem : id ∈ subtree_tgids origin := by
    rw [← hroot]; exact tgid_mem_subtree (subtree_tasks_self origin)
  have hle : id_count hidden_proc id ≤ 1 :=
    (nodup_ids_iff hidden_proc).1 (reachable_nodup hreach) id
  rw [hide_process_of_live hlive hpar]
  have hhid := travel_hides_both.1 origin ppid hidden_proc id hmem
  have h1 := (travel_count_both id).1 origin ppid hidden_proc hle
  have h2 := id_count_pos _ _ hhid
  show id_count (travel_all_add_node origin ppid hidden_proc) id = 1
  omega

/-- The registry reached by hiding 11 holds the records of 11 and 13; hiding
the example root 10 twice then gives the same four records as hiding it once,
with one record of 10. -/
theorem hide_process_idempotent_witness :
    Reachable (hide_process demo_host 11 []).2 ∧
      names_live_process demo_host 10 demo_root ∧ demo_root.real_parent = some 1 ∧
      (hide_process demo_host 10 (hide_process demo_host 10 (hide_process demo_host 11 []).2).2).2
        = (hide_process demo_host 10 (hide_process demo_host 11 []).2).2 ∧
      id_count (hide_process demo_host 10 (hide_process demo_host 11 []).2).2 10 = 1 ∧
      (hide_process demo_host 10 (hide_process demo_host 11 []).2).2
        = [⟨11, 10⟩, ⟨13, 11⟩, ⟨10, 1⟩, ⟨12, 10⟩] :=
  ⟨Reachable.hide demo_host 11 [] Reachable.empty, demo_live, rfl,
    (hide_process_idempotent demo_host (hide_process demo_host 11 []).2 10 demo_root 1
      (Reachable.hide demo_host 11 [] Reachable.empty) demo_live rfl).1,
    (hide_process_idempotent demo_host (hide_process demo_host 11 []).2 10 demo_root 1
      (Reachable.hide demo_host 11 [] Reachable.empty) demo_live rfl).2,
    by decide⟩

/-- Claim C8 (unique ids).  In every registry reachable from the empty one by
`hide_process` and `unhide_process` calls, over hosts that may differ from call
to call, no two records share an id. -/
theorem reachable_unique_ids (hidden_proc : Registry) (hreach : Reachable hidden_proc) :
    hidden_proc.Pairwise (fun a b => a.id ≠ b.id) := by
  have h := reachable_nodup hreach
  rw [List.Nodup, List.pairwise_map] at h
  exact h

/-- A registry reached by hiding 10, unhiding 11 and hiding 11 again. -/
theorem reachable_unique_ids_witness :
    Reachable (hide_process demo_host 11 [⟨10, 1⟩, ⟨12, 10⟩]).2 ∧
      (hide_process demo_host 11 [⟨10, 1⟩, ⟨12, 10⟩]).2.Pairwise (fun a b => a.id ≠ b.id) :=
  ⟨Reachable.hide demo_host 11 _
      (Reachable.unhide 7 11 SUCCESS (hide_process demo_host 10 []).2 [⟨10, 1⟩, ⟨12, 10⟩]
        (Reachable.hide demo_host 10 [] Reachable.empty) (by decide)),
    reachable_unique_ids _
      (Reachable.hide demo_host 11 _
        (Reachable.unhide 7 11 SUCCESS (hide_process demo_host 10 []).2 [⟨10, 1⟩, ⟨12, 10⟩]
          (Reachable.hide demo_host 10 [] Reachable.empty) (by decide)))⟩

/-- Claim C9 (unhide of a leaf child leaves the siblings).  In a live tree
(pairwise distinct identifiers, the OS parent of `root` outside the subtree) in
which `root` has the children `c1` and `c2` with different identifiers and `c1`
has no children, starting from the empty registry, `hide_process(root)` followed
by `unhide_process(c1)` returns the registry after the hide with the record of
`c1` erased; `root` and `c2` are still hidden and `c1` is not. -/
theorem unhide_leaf_child_keeps_siblings (h : Host) (root : Int) (origin : task_struct)
    (ppid : Int) (c1 c2 : task_struct) (hlive : names_live_process h root origin)
    (hpar : origin.real_parent = some ppid) (hnd : (subtree_tgids origin).Nodup)
    (hpp : ppid ∉ subtree_tgids origin) (hc1 : c1 ∈ origin.children)
    (hc2 : c2 ∈ origin.children) (hne : c1.tgid ≠ c2.tgid) (hleaf : c1.children = []) :
    ∃ N, ∀ fuel, N ≤ fuel →
      ∃ res, unhide_process fuel c1.tgid (hide_process h root []).2 = some (SUCCESS, res) ∧
        res = (hide_process h root []).2.erase ⟨c1.tgid, root⟩ ∧
        is_hidden_proc res root = true ∧ is_hidden_proc res c2.tgid = true ∧
        is_hidden_proc res c1.tgid = false := by
  have hroot : origin.tgid = root := by obtain ⟨_, _, _, h3⟩ := hlive; exact h3
  rw [hide_process_fresh hlive hpar hnd]
  have hc1t := child_mem_subtree_tasks hc1
  have hno := walk_records_no_child_of_leaf hnd hpp hc1t hleaf
  have hrec1 : (⟨c1.tgid, root⟩ : pid_node_t) ∈ walk_records origin ppid :=
    hroot ▸ child_record_mem_walk ppid hc1
  have hrec2 : (⟨c2.tgid, root⟩ : pid_node_t) ∈ walk_records origin ppid :=
    hroot ▸ child_record_mem_walk ppid hc2
  have hrec0 : (⟨root, ppid⟩ : pid_node_t) ∈ walk_records origin ppid :=
    hroot ▸ walk_records_head origin ppid
  have hids : ((walk_records origin ppid).map pid_node_t.id).Nodup := by
    rw [walk_records_ids_both.1]; exact hnd
  have hne0 : root ≠ c1.tgid := by
    intro he
    have := task_eq_of_tgid hnd (subtree_tasks_self origin) hc1t (hroot.trans he)
    rw [← this] at hleaf
    rw [hleaf] at hc1
    cases hc1
  obtain ⟨N, hN⟩ := unhide_process_filter c1.tgid (walk_records origin ppid)
  refine ⟨N, fun fuel hfuel =>
    ⟨_, hN fuel hfuel (fun r => decide (r.id ≠ c1.tgid)) ?_, ?_, ?_, ?_, ?_⟩⟩
  · intro r _
    simp only [ne_eq, decide_eq_true_eq]
    constructor
    · intro hr hl
      exact hr (Linked.eq_of_no_child hno hl)
    · intro hr he
      exact hr (he ▸ Linked.base)
  · exact filter_ne_id_eq_erase ⟨c1.tgid, root⟩ _ hids hrec1
  · rw [is_hidden_proc_filter]
    exact ⟨_, hrec0, by simpa using hne0, rfl⟩
  · rw [is_hidden_proc_filter]
    exact ⟨_, hrec2, by simpa using hne.symm, rfl⟩
  · rw [← Bool.not_eq_true, is_hidden_proc_filter]
    rintro ⟨r, _, hk, hr⟩
    simp at hk
    exact hk hr

/-- In the example tree the childless child is 12; unhiding it keeps the
records of 10, 11 and 13. -/
theorem unhide_leaf_child_keeps_siblings_witness :
    names_live_process demo_host 10 demo_root ∧ demo_root.real_parent = some 1 ∧
      (∃ N, ∀ fuel, N ≤ fuel →
        ∃ res, unhide_process fuel 12 (hide_process demo_host 10 []).2 = some (SUCCESS, res) ∧
          res = (hide_process demo_host 10 []).2.erase ⟨12, 10⟩ ∧
          is_hidden_proc res 10 = true ∧ is_hidden_proc res 11 = true ∧
          is_hidden_proc res 12 = false) ∧
      unhide_process 7 12 (hide_process demo_host 10 []).2
        = some (SUCCESS, [⟨10, 1⟩, ⟨11, 10⟩, ⟨13, 11⟩]) :=
  ⟨demo_live, rfl,
    unhide_leaf_child_keeps_siblings demo_host 10 demo_root 1 (.mk 12 (some 10) [])
      (.mk 11 (some 10) [.mk 13 (some 11) []]) demo_live rfl (by decide) (by decide)
      (by simp [demo_root, task_struct.children]) (by simp [demo_root, task_struct.children])
      (by decide) rfl,
    by decide⟩

/-- Claim C10 (add skips dead identifiers).  The add loop applies
`hide_process` to the scanned identifiers in order; an identifier for which the
lookups fail leaves every registry unchanged, and the loop over all identifiers
gives the same registry as the loop over those that name live processes. -/
theorem device_write_add_skips_dead (h : Host) (pids : List Int) (hidden_proc : Registry) :
    device_write_add h pids hidden_proc
        = pids.foldl (fun hp pid => (hide_process h (to_pid_t pid) hp).2) hidden_proc ∧
      (∀ pid ∈ pids, is_live h (to_pid_t pid) = false →
        ∀ hp, (hide_process h (to_pid_t pid) hp).2 = hp) ∧
      device_write_add h pids hidden_proc
        = device_write_add h (pids.filter (fun pid => is_live h (to_pid_t pid))) hidden_proc := by
  refine ⟨?_, fun pid _ hdead hp => hide_process_of_not_live h _ hp hdead, ?_⟩
  · induction pids generalizing hidden_proc with
    | nil => rfl
    | cons pid rest ih => rw [device_write_add, List.foldl_cons, ih]
  · induction pids generalizing hidden_proc with
    | nil => rfl
    | cons pid rest ih =>
      cases hl : is_live h (to_pid_t pid)
      · rw [List.filter_cons_of_neg (by simp [hl]), device_write_add,
          hide_process_of_not_live h _ _ hl, ih]
      · rw [List.filter_cons_of_pos (by simp [hl]), device_write_add, device_write_add, ih]

/-- The add request `999 11 4 12` on the example host: 999 and 4 are not live
and are skipped. -/
theorem device_write_add_skips_dead_witness :
    is_live demo_host (to_pid_t 999) = false ∧
      (hide_process demo_host (to_pid_t 999) [⟨12, 10⟩]).2 = [⟨12, 10⟩] ∧
      device_write_add demo_host [999, 11, 4, 12] []
        = device_write_add demo_host [11, 12] [] ∧
      device_write_add demo_host [999, 11, 4, 12] [] = [⟨11, 10⟩, ⟨13, 11⟩, ⟨12, 10⟩] :=
  ⟨by decide,
    (device_write_add_skips_dead demo_host [999, 11, 4, 12] []).2.1 999 (by decide) (by decide)
      [⟨12, 10⟩],
    (device_write_add_skips_dead demo_host [999, 11, 4, 12] []).2.2, by decide⟩

/-- Claim C11 fails as stated.  The body `add 1,2,3` hides 1 only: after the
first integer the scan meets a comma, `sscanf` returns 0 and the loop ends, so 2
and 3 are never passed to `hide_process`, although all three are live. -/
theorem device_write_comma_list_counterexample :
    device_write sscanf_ld_n demo_flat_host 5 (ascii "add 1,2,3") 0 []
        = .ok (9, 9, [⟨1, 100⟩]) ∧
      device_write_add demo_flat_host [1, 2, 3] [] = [⟨1, 100⟩, ⟨2, 100⟩, ⟨3, 100⟩] ∧
      is_hidden_proc [⟨1, 100⟩] 2 = false ∧ is_hidden_proc [⟨1, 100⟩] 3 = false := by
  decide

/-- Claim C11, amended.  A request body that begins with `add` (or `del`), then
one more byte, then decimal integers of which the first may and every later one
must be preceded by white space, then a remainder at which `sscanf` fails (the
end of the body, or a byte that is neither white space nor the start of an
integer): `device_write` passes exactly those integers, narrowed to `pid_t`, in
order, to `hide_process` (respectively `unhide_process`), ignores the remainder
and returns the length of the body. -/
theorem device_write_integer_list (h : Host) (sep : Nat) (toks : List (List Nat × List Nat))
    (tail : List Nat) (offset : Int) (hidden_proc : Registry)
    (htok : ∀ t ∈ toks, is_token t) (hsep : ∀ t ∈ toks.tail, t.1 ≠ [])
    (htail : sscanf_ld_n (tail ++ [0]) = none) :
    (∀ fuel, toks.length < fuel →
      device_write sscanf_ld_n h fuel (ascii "add" ++ sep :: (render_tokens toks ++ tail))
          offset hidden_proc
        = .ok ((ascii "add" ++ sep :: (render_tokens toks ++ tail)).length,
            (ascii "add" ++ sep :: (render_tokens toks ++ tail)).length,
            device_write_add h (token_values toks) hidden_proc)) ∧
    (∃ N, ∀ fuel, N ≤ fuel →
      ∃ res, device_write_del fuel (token_values toks) hidden_proc = some res ∧
        device_write sscanf_ld_n h fuel (ascii "del" ++ sep :: (render_tokens toks ++ tail))
            offset hidden_proc
          = .ok ((ascii "del" ++ sep :: (render_tokens toks ++ tail)).length,
              (ascii "del" ++ sep :: (render_tokens toks ++ tail)).length, res)) := by
  have hne : tail ++ [0] ≠ [] := by simp
  constructor
  · intro fuel hfuel
    have hloop := request_loop_tokens (fun pid hp => some (hide_process h pid hp).2)
      (tail ++ [0]) htail hne toks (ascii "add" ++ [sep]) fuel hidden_proc htok hsep hfuel
    rw [request_fold_hide] at hloop
    rw [device_write_add_branch _ _ _ _ _ _ (by simp [ascii]), request_message,
      List.append_assoc (render_tokens toks)]
    have h4 : (ascii "add" ++ [sep]).length = 4 := by simp [ascii]
    rw [h4] at hloop
    rw [hloop]
  · obtain ⟨N, hN⟩ := device_write_del_terminates (token_values toks) hidden_proc
    refine ⟨max N (toks.length + 1), fun fuel hfuel => ?_⟩
    obtain ⟨res, hres⟩ := hN fuel (le_trans (le_max_left _ _) hfuel)
    refine ⟨res, hres, ?_⟩
    have hloop := request_loop_tokens (fun pid hp => (unhide_process fuel pid hp).map Prod.snd)
      (tail ++ [0]) htail hne toks (ascii "del" ++ [sep]) fuel hidden_proc htok hsep
      (by have := le_trans (le_max_right _ _) hfuel; omega)
    rw [request_fold_unhide, hres] at hloop
    rw [device_write_del_branch _ _ _ _ _ _ (by simp [ascii]), request_message,
      List.append_assoc (render_tokens toks)]
    have h4 : (ascii "del" ++ [sep]).length = 4 := by simp [ascii]
    rw [h4] at hloop
    rw [hloop]

/-- The body `add 1 2 3`, with the tokens `1`, ` 2` and ` 3`, hides 1, 2 and 3;
the body `del 1 3` then unhides 1 and 3. -/
theorem device_write_integer_list_witness :
    (∀ t ∈ [(([] : List Nat), ascii "1"), (ascii " ", ascii "2"), (ascii " ", ascii "3")],
        is_token t) ∧
      sscanf_ld_n ([] ++ [0]) = none ∧
      device_write sscanf_ld_n demo_flat_host 4 (ascii "add 1 2 3") 0 []
        = .ok (9, 9, [⟨1, 100⟩, ⟨2, 100⟩, ⟨3, 100⟩]) ∧
      device_write sscanf_ld_n demo_flat_host 9 (ascii "del 1 3") 0
          [⟨1, 100⟩, ⟨2, 100⟩, ⟨3, 100⟩]
        = .ok (7, 7, [⟨2, 100⟩]) :=
  ⟨by simp only [is_token]; decide, by decide,
    (device_write_integer_list demo_flat_host 32
      [([], ascii "1"), (ascii " ", ascii "2"), (ascii " ", ascii "3")] [] 0 []
      (by simp only [is_token]; decide) (by decide) (by decide)).1 4 (by decide),
    by decide⟩

/-- Claim C12 fails as stated.  The body `addx 5` is not rejected: its first
three bytes are `add`, the byte `x` is skipped as the separator, 5 is scanned and
hidden, and the call returns the length 6 instead of `-EAGAIN`. -/
theorem device_write_token_counterexample :
    device_write sscanf_ld_n demo_flat_host 2 (ascii "addx 5") 0 []
        = .ok (6, 6, [⟨5, 100⟩]) ∧
      (6 : Int) ≠ -EAGAIN ∧ ([⟨5, 100⟩] : Registry) ≠ [] := by
  decide

/-- Claim C12, amended.  For every request body whose first three bytes are
neither `add` nor `del`, bodies shorter than three bytes included,
`device_write` returns `-EAGAIN` and leaves the registry and the offset
unchanged, whatever `sscanf` does and for every fuel. -/
theorem device_write_rejects (sscanf : List Nat → Option (Int × Nat)) (h : Host) (fuel : Nat)
    (buffer : List Nat) (offset : Int) (hidden_proc : Registry)
    (hadd : buffer.take 3 ≠ ascii "add") (hdel : buffer.take 3 ≠ ascii "del") :
    device_write sscanf h fuel buffer offset hidden_proc
      = .ok (-EAGAIN, offset, hidden_proc) := by
  rw [device_write]
  by_cases hlen : buffer.length < 3
  · rw [if_pos (by simp [add_message, del_message, ascii]; omega)]
  · have h3 : 3 ≤ buffer.length := by omega
    have ha : add_message.length - 1 = 3 := by decide
    have hd : del_message.length - 1 = 3 := by decide
    have hat : add_message.take 3 = ascii "add" := by decide
    have hdt : del_message.take 3 = ascii "del" := by decide
    rw [if_neg (by simp [add_message, del_message, ascii]; omega), ha, hd,
      take_three_append _ h3, hat, hdt, if_neg hadd, if_neg hdel]

/-- The two-byte body `ad` and the body `hide 5` are rejected. -/
theorem device_write_rejects_witness :
    (ascii "ad").take 3 ≠ ascii "add" ∧ (ascii "ad").take 3 ≠ ascii "del" ∧
      device_write sscanf_ld_n demo_flat_host 9 (ascii "ad") 0 [⟨1, 100⟩]
        = .ok (-EAGAIN, 0, [⟨1, 100⟩]) ∧
      device_write sscanf_ld_n demo_flat_host 9 (ascii "hide 5") 0 [⟨1, 100⟩]
        = .ok (-11, 0, [⟨1, 100⟩]) :=
  ⟨by decide, by decide,
    device_write_rejects sscanf_ld_n demo_flat_host 9 (ascii "ad") 0 [⟨1, 100⟩]
      (by decide) (by decide),
    by decide⟩

/-- Claim C13 (read serialization).  For every registry, `device_read` at
offset 0 copies to the user buffer the lines `parent pid: <parent> pid: <id>`,
each ended by a newline, one per record in the order of the registry list,
returns the number of bytes copied and leaves `*offset` at that number; at a
non-zero offset it copies nothing, returns 0 and leaves the offset as it is. -/
theorem device_read_serializes (hidden_proc : Registry) :
    device_read hidden_proc 0
        = (((hidden_proc.map record_line).flatten.length : Int),
            ((hidden_proc.map record_line).flatten.length : Int),
            (hidden_proc.map record_line).flatten) ∧
      ∀ offset, offset ≠ 0 → device_read hidden_proc offset = (0, offset, []) := by
  constructor
  · simp [device_read, device_read_loop_eq]
  · intro offset hoff
    simp [device_read, hoff]

/-- The registry of the example tree gives four lines, 91 bytes; a second read
at the offset 91 gives nothing. -/
theorem device_read_serializes_witness :
    device_read (hide_process demo_host 10 []).2 0
        = (91, 91, ascii ("parent pid: 1 pid: 10\nparent pid: 10 pid: 11\n" ++
            "parent pid: 11 pid: 13\nparent pid: 10 pid: 12\n")) ∧
      device_read (hide_process demo_host 10 []).2 91 = (0, 91, []) :=
  ⟨by decide, (device_read_serializes (hide_process demo_host 10 []).2).2 91 (by decide)⟩

/-- Claim C14 (install rollback).  With host calls that change nothing when
they fail and a filter removal that succeeds, for every combination of outcomes
of the symbol lookup, the filter setup and the registration, `hook_install`
started in the state `Uninstalled` returns 0 exactly when all three succeed, and
then the filter is set and the replacement registered; whenever it returns a
non-zero value the final state is `Uninstalled` again. -/
theorem hook_install_rollback (k : ftrace_calls) :
    ((hook_install k Uninstalled).1 = 0 ↔
        (k.kallsyms_lookup_name ≠ 0 ∧ k.ftrace_set_filter_ip = 0 ∧
          k.register_ftrace_function = 0)) ∧
      ((hook_install k Uninstalled).1 ≠ 0 → (hook_install k Uninstalled).2 = Uninstalled) ∧
      ((hook_install k Uninstalled).1 = 0 → (hook_install k Uninstalled).2 = ⟨true, true⟩) := by
  unfold hook_install hook_resolve_addr Uninstalled
  by_cases h1 : k.kallsyms_lookup_name = 0
  · simp [h1, ENOENT]
  · by_cases h2 : k.ftrace_set_filter_ip = 0
    · by_cases h3 : k.register_ftrace_function = 0
      · simp [h1, h2, h3]
      · simp [h1, h2, h3]
    · simp [h1, h2]

/-- The registration fails with -16 after the lookup and the filter setup have
succeeded: the error is returned and no filter is left. -/
theorem hook_install_rollback_witness :
    hook_install ⟨4096, 0, -16⟩ Uninstalled = (-16, Uninstalled) ∧
      ((hook_install ⟨4096, 0, -16⟩ Uninstalled).1 ≠ 0 →
        (hook_install ⟨4096, 0, -16⟩ Uninstalled).2 = Uninstalled) ∧
      hook_install ⟨0, 0, 0⟩ Uninstalled = (-ENOENT, Uninstalled) ∧
      hook_install ⟨4096, 0, 0⟩ Uninstalled = (0, ⟨true, true⟩) :=
  ⟨by decide, (hook_install_rollback ⟨4096, 0, -16⟩).2.1, by decide, by decide⟩

/-- Claim C15 (unhide always terminates).  For every registry, with parent
cycles, self-parents or duplicate ids or not, and every identifier `id`, there
is a fuel from which on `unhide_process(id)` returns `SUCCESS`: the scan with its
recursive calls and restarts from the head is well founded. -/
theorem unhide_process_terminates (id : Int) (hidden_proc : Registry) :
    ∃ N, ∀ fuel, N ≤ fuel →
      ∃ res, unhide_process fuel id hidden_proc = some (SUCCESS, res) := by
  obtain ⟨keep, hkeep⟩ := exists_keep id hidden_proc
  obtain ⟨N, hN⟩ := unhide_process_filter id hidden_proc
  exact ⟨N, fun fuel hfuel => ⟨_, hN fuel hfuel keep (fun r _ => hkeep r)⟩⟩

/-- Unhiding 1 in the registry with a parent cycle, a self-parent and a
duplicate id returns. -/
theorem unhide_process_terminates_witness :
    (∃ N, ∀ fuel, N ≤ fuel →
      ∃ res, unhide_process fuel 1 demo_tangled = some (SUCCESS, res)) ∧
      unhide_process 11 1 demo_tangled = some (SUCCESS, [⟨3, 3⟩, ⟨5, 3⟩]) ∧
      unhide_process 12 3 demo_tangled
        = some (SUCCESS, [⟨1, 2⟩, ⟨2, 1⟩, ⟨4, 2⟩, ⟨1, 9⟩]) :=
  ⟨unhide_process_terminates 1 demo_tangled, by decide, by decide⟩

/-- Claim C16 (the enumeration filter terminates).  For every registry and
every bound, when the original primitive only returns live identifiers at or
above its argument and the live identifiers are finitely many, the loop of
`hook_find_ge_pid` returns once the fuel exceeds the number of live
identifiers: each re-invocation uses a strictly larger bound. -/
theorem hook_find_ge_pid_terminates (live : List Int)
    (real_find_ge_pid : Int → Option struct_pid) (hidden_proc : Registry) (bound : Int)
    (hreal : ∀ nr pid, real_find_ge_pid nr = some pid → nr ≤ pid.nr ∧ pid.nr ∈ live) :
    ∀ fuel, live.length < fuel →
      ∃ res, hook_find_ge_pid real_find_ge_pid hidden_proc fuel bound = some res := by
  intro fuel hfuel
  rw [hook_find_ge_pid]
  exact hook_find_ge_pid_loop_terminates live real_find_ge_pid hidden_proc hreal fuel bound
    (lt_of_le_of_lt (List.length_filter_le _ _) hfuel)

/-- The live identifiers 1, 2 and 3 are all hidden: from the bound 0 the loop
calls the primitive four times and ends with null. -/
theorem hook_find_ge_pid_terminates_witness :
    (∀ nr pid, scan_find_ge_pid [1, 2, 3] nr = some pid → nr ≤ pid.nr ∧ pid.nr ∈ [1, 2, 3]) ∧
      (∃ res, hook_find_ge_pid (scan_find_ge_pid [1, 2, 3]) [⟨1, 0⟩, ⟨2, 0⟩, ⟨3, 0⟩] 4 0
        = some res) ∧
      hook_find_ge_pid (scan_find_ge_pid [1, 2, 3]) [⟨1, 0⟩, ⟨2, 0⟩, ⟨3, 0⟩] 4 0 = some none ∧
      hook_find_ge_pid (scan_find_ge_pid [1, 2, 3]) [⟨1, 0⟩, ⟨2, 0⟩, ⟨3, 0⟩] 3 0 = none :=
  ⟨fun nr pid hpid => ⟨((scan_find_ge_pid_spec [1, 2, 3] nr).1 pid hpid).2.1,
      ((scan_find_ge_pid_spec [1, 2, 3] nr).1 pid hpid).1⟩,
    hook_find_ge_pid_terminates [1, 2, 3] (scan_find_ge_pid [1, 2, 3])
      [⟨1, 0⟩, ⟨2, 0⟩, ⟨3, 0⟩] 0
      (fun nr pid hpid => ⟨((scan_find_ge_pid_spec [1, 2, 3] nr).1 pid hpid).2.1,
        ((scan_find_ge_pid_spec [1, 2, 3] nr).1 pid hpid).1⟩) 4 (by decide),
    by decide, by decide⟩

/-- Claim C17 (unhide removes nothing else).  For every registry, with
pairwise distinct ids or not, and every identifier `id`, with enough fuel
`unhide_process(id)` returns `SUCCESS` and a sublist of the registry (the
records that stay keep their fields and their relative order) in which a record
of the registry is present exactly when its id is not linked to `id`; it is the
registry filtered by any test that tells the unlinked records. -/
theorem unhide_process_frame (id : Int) (hidden_proc : Registry) :
    ∃ N, ∀ fuel, N ≤ fuel →
      ∃ res, unhide_process fuel id hidden_proc = some (SUCCESS, res) ∧
        res.Sublist hidden_proc ∧
        (∀ r ∈ hidden_proc, (r ∈ res ↔ ¬ Linked hidden_proc id r.id)) ∧
        ∀ keep : pid_node_t → Bool,
          (∀ r ∈ hidden_proc, (keep r = true ↔ ¬ Linked hidden_proc id r.id)) →
            res = hidden_proc.filter keep := by
  obtain ⟨keep, hkeep⟩ := exists_keep id hidden_proc
  obtain ⟨N, hN⟩ := unhide_process_filter id hidden_proc
  refine ⟨N, fun fuel hfuel =>
    ⟨hidden_proc.filter keep, hN fuel hfuel keep (fun r _ => hkeep r),
      List.filter_sublist _, ?_, ?_⟩⟩
  · intro r hr
    rw [List.mem_filter, hkeep r]
    exact ⟨fun h => h.2, fun h => ⟨hr, h⟩⟩
  · intro keep2 hkeep2
    apply List.filter_congr
    intro r hr
    rw [Bool.eq_iff_iff, hkeep r, hkeep2 r hr]

/-- In the registry (10,1), (11,10), (13,11), (12,10), (20,1) the ids linked to
11 are 11 and 13, and unhiding 11 leaves the other three records in place. -/
theorem unhide_process_frame_witness :
    (∀ r ∈ demo_two_roots,
        (decide (r.id ≠ 11 ∧ r.id ≠ 13) = true ↔ ¬ Linked demo_two_roots 11 r.id)) ∧
      (∃ N, ∀ fuel, N ≤ fuel →
        unhide_process fuel 11 demo_two_roots
          = some (SUCCESS, [⟨10, 1⟩, ⟨12, 10⟩, ⟨20, 1⟩])) := by
  have h13 : Linked demo_two_roots 11 13 :=
    Linked.step ⟨13, 11⟩ 11 Linked.base (by decide) rfl
  have hkeep : ∀ r ∈ demo_two_roots,
      (decide (r.id ≠ 11 ∧ r.id ≠ 13) = true ↔ ¬ Linked demo_two_roots 11 r.id) := by
    intro r hr
    rw [decide_eq_true_eq]
    constructor
    · intro hne hl
      have := Linked.closed (fun x => x = 11 ∨ x = 13) (Or.inl rfl) (by decide) hl
      rcases this with h | h
      · exact hne.1 h
      · exact hne.2 h
    · intro hnl
      exact ⟨fun h => hnl (h ▸ Linked.base), fun h => hnl (h ▸ h13)⟩
  refine ⟨hkeep, ?_⟩
  obtain ⟨N, hN⟩ := unhide_process_frame 11 demo_two_roots
  refine ⟨N, fun fuel hfuel => ?_⟩
  obtain ⟨res, hres, _, _, hfilter⟩ := hN fuel hfuel
  rw [hres, hfilter (fun r => decide (r.id ≠ 11 ∧ r.id ≠ 13)) hkeep]
  rfl

/-- Claim C18 (what hide records).  For every live process tree with pairwise
distinct identifiers and every live `root` with an OS parent, starting from the
empty registry, the registry after `hide_process(root)` is the depth-first
pre-order listing of the subtree of `root`: its ids are the identifiers of the
subtree in pre-order, the record of `root` carries the identifier of the OS
parent of `root`, and the record of every other task carries the identifier of
its direct parent in the live tree. -/
theorem hide_process_records_preorder (h : Host) (root : Int) (origin : task_struct)
    (ppid : Int) (hlive : names_live_process h root origin)
    (hpar : origin.real_parent = some ppid) (hnd : (subtree_tgids origin).Nodup) :
    (hide_process h root []).2 = walk_records origin ppid ∧
      (hide_process h root []).2.map pid_node_t.id = subtree_tgids origin ∧
      (hide_process h root []).2.head? = some ⟨root, ppid⟩ ∧
      ∀ r ∈ (hide_process h root []).2.tail,
        ∃ t ∈ subtree_tasks origin, ∃ c ∈ t.children, r = ⟨c.tgid, t.tgid⟩ := by
  have hroot : origin.tgid = root := by obtain ⟨_, _, _, h3⟩ := hlive; exact h3
  rw [hide_process_fresh hlive hpar hnd]
  refine ⟨rfl, walk_records_ids_both.1 origin ppid, ?_, ?_⟩
  · cases origin with
    | mk tgid rp cs => rw [walk_records, ← hroot]; rfl
  · intro r hr
    cases origin with
    | mk tgid rp cs =>
      rw [walk_records, List.tail_cons] at hr
      rcases mem_walk_records_both.2 cs tgid r hr with ⟨c, hc, hrc⟩ | ⟨n, hn, c, hc, hrc⟩
      · exact ⟨.mk tgid rp cs, subtree_tasks_self _, c, hc, hrc⟩
      · exact ⟨n, by rw [subtree_tasks]; exact List.mem_cons_of_mem _ hn, c, hc, hrc⟩

/-- The example tree gives (10,1), (11,10), (13,11), (12,10). -/
theorem hide_process_records_preorder_witness :
    names_live_process demo_host 10 demo_root ∧ demo_root.real_parent = some 1 ∧
      (subtree_tgids demo_root).Nodup ∧
      (hide_process demo_host 10 []).2 = [⟨10, 1⟩, ⟨11, 10⟩, ⟨13, 11⟩, ⟨12, 10⟩] ∧
      (hide_process demo_host 10 []).2.map pid_node_t.id = [10, 11, 13, 12] :=
  ⟨demo_live, rfl, by decide,
    (hide_process_records_preorder demo_host 10 demo_root 1 demo_live rfl (by decide)).1,
    (hide_process_records_preorder demo_host 10 demo_root 1 demo_live rfl (by decide)).2.1⟩

/-- Claim C19 fails on the code.  For the three-byte requests `add` and `del`
the copy `message` has four bytes, at the offsets 0 to 3, and the scan starts at
the offset `sizeof(add_message)`, which is 4: the first byte `sscanf` is given
lies outside the allocation, whatever `sscanf` does with it. -/
theorem device_write_three_bytes_out_of_bounds (sscanf : List Nat → Option (Int × Nat))
    (h : Host) (fuel : Nat) (offset : Int) (hidden_proc : Registry) :
    add_message.length = 4 ∧ (ascii "add" ++ [0]).length = 4 ∧
      device_write sscanf h (fuel + 1) (ascii "add") offset hidden_proc = .out_of_bounds ∧
      device_write sscanf h (fuel + 1) (ascii "del") offset hidden_proc = .out_of_bounds := by
  refine ⟨by decide, by decide, ?_, ?_⟩
  · rw [device_write_add_branch _ _ _ _ _ _ (by decide), request_loop,
      if_neg (by decide)]
  · rw [device_write_del_branch _ _ _ _ _ _ (by decide), request_loop,
      if_neg (by decide)]

/-- Claim C20 (the read line fits its buffer).  For every record whose id and
parent are valid process identifiers, between 0 and 4194304, the text that
`sprintf` writes for `OUTPUT_BUFFER_FORMAT` and `(parent, id)`, with its
terminating zero, is at most `MAX_MESSAGE_SIZE` bytes long, and
`MAX_MESSAGE_SIZE` is `sizeof(OUTPUT_BUFFER_FORMAT) + 10`, that is 34. -/
theorem sprintf_fits_message (parent id : Int) (hp0 : 0 ≤ parent) (hp1 : parent ≤ 4194304)
    (hi0 : 0 ≤ id) (hi1 : id ≤ 4194304) :
    (sprintf OUTPUT_BUFFER_FORMAT [parent, id]).length + 1 ≤ MAX_MESSAGE_SIZE ∧
      MAX_MESSAGE_SIZE = 34 := by
  have hmax : MAX_MESSAGE_SIZE = 34 := by decide
  have h1 := format_d_length_pid parent hp0 hp1
  have h2 := format_d_length_pid id hi0 hi1
  have hlen := record_line_length ⟨id, parent⟩
  rw [sprintf_record, hlen, hmax]
  exact ⟨by simp only []; omega, rfl⟩

/-- The longest line, for the identifier 4194304 twice, fills the 34 bytes
exactly. -/
theorem sprintf_fits_message_witness :
    (0 : Int) ≤ 4194304 ∧ (4194304 : Int) ≤ 4194304 ∧
      (sprintf OUTPUT_BUFFER_FORMAT [4194304, 4194304]).length + 1 ≤ MAX_MESSAGE_SIZE ∧
      (sprintf OUTPUT_BUFFER_FORMAT [4194304, 4194304]).length + 1 = 34 :=
  ⟨by decide, by decide,
    (sprintf_fits_message 4194304 4194304 (by decide) (by decide) (by decide) (by decide)).1,
    by decide⟩

end HideProc
